import Mathlib

/-
Formal model of the algorithmic core of the gantt-chart application:
the date/calendar utilities (Japanese holiday computation, date ranges,
weekend and non-working-day checks) and the ordering utilities
(list moves and sort-order reconciliation) of src/lib/date.ts.

Modelling conventions:
- ISO date strings are Lean Strings; their character lists are manipulated
  directly (Lean's String is a structure over List Char).
- JavaScript numbers are modelled as unbounded exact integers (Int / Nat).
  The ECMAScript float range and exotic Number() syntaxes (hex, exponent,
  surrounding whitespace) are outside the model; the integers appearing in
  this module are far inside the exactly-representable range.
- JavaScript Date arithmetic is modelled by the ECMA-262 calendar functions
  (MakeDay / DayFromYear / WeekDay) on unbounded integers, and by explicit
  calendar successor / normalization functions on (year, month, day) triples.
- JavaScript Set objects over strings are modelled as duplicate-free
  List String with an insert-if-absent operation.
-/

namespace GanttSpec

/-- Decimal digit characters 0-9 (ASCII 48-57), as produced and consumed by
JavaScript number formatting and parsing. -/
def isDigitChar (c : Char) : Bool := 48 ≤ c.toNat && c.toNat ≤ 57

/-- Numeric value of a list of decimal digit characters, most significant
first. -/
def digitsVal (cs : List Char) : Nat := cs.foldl (fun a c => 10 * a + (c.toNat - 48)) 0

/-- Model of the composite Number(component) followed by the
Number.isInteger test used by parseDateKey: returns the value when the
component is an (optionally signed) string of decimal digits, 0 for the
empty string (Number("") is 0), and none otherwise.  Number's other
numeric syntaxes (fractions - rejected by isInteger anyway -, exponent or
hex forms, surrounding whitespace) are outside the model. -/
def jsNumber (cs : List Char) : Option Int :=
  if cs.isEmpty then some 0
  else if cs.all isDigitChar then some (digitsVal cs)
  else
    match cs with
    | '-' :: rest => if !rest.isEmpty && rest.all isDigitChar then some (-(digitsVal rest : Int)) else none
    | '+' :: rest => if !rest.isEmpty && rest.all isDigitChar then some ((digitsVal rest : Int)) else none
    | _ => none

/-- Model of JavaScript String.prototype.split("-") on the underlying
character list: "a-b" gives ["a","b"], "" gives [""], "a--b" gives
["a","","b"]. -/
def splitDash : List Char → List (List Char)
  | [] => [[]]
  | c :: rest =>
    if c = '-' then [] :: splitDash rest
    else
      match splitDash rest with
      | [] => [[c]]
      | p :: ps => (c :: p) :: ps

/-- Decimal digit characters of a natural number (the kernel-executable
form, via the core toDigits function). -/
def natChars (n : Nat) : List Char := Nat.toDigits 10 n

/-- Specification twin of natChars used in proofs (well-founded recursion,
so it does not reduce in the kernel but has clean equations). -/
def digitsOf (n : Nat) : List Char :=
  if n < 10 then [Nat.digitChar n]
  else digitsOf (n / 10) ++ [Nat.digitChar (n % 10)]
decreasing_by omega

/-- Decimal rendering of an integer, as the JavaScript template literal
interpolation of an integral number produces it. -/
def intChars (i : Int) : List Char :=
  if i < 0 then '-' :: natChars (-i).toNat else natChars i.toNat

/-- Model of String.prototype.padStart(2, "0"). -/
def padTwo (cs : List Char) : List Char :=
  if 2 ≤ cs.length then cs else if cs.length = 1 then '0' :: cs else ['0', '0']

/-- Model of toDateKey: the template literal
year-MM-DD with month and day zero-padded to two characters. -/
def toDateKey (y m d : Int) : String :=
  ⟨intChars y ++ '-' :: (padTwo (intChars m) ++ '-' :: padTwo (intChars d))⟩

/-- Parsed date triple, as returned by parseDateKey ({year, month, day}). -/
structure Ymd where
  year : Int
  month : Int
  day : Int
  deriving DecidableEq

/-- Model of parseDateKey: split on "-", convert the first three components
with Number / Number.isInteger, then range-check month in [1,12] and day in
[1,31].  Strings with fewer than three components give null (destructuring
yields undefined and Number(undefined) is NaN). -/
def parseDateKey (s : String) : Option Ymd :=
  match splitDash s.data with
  | yearRaw :: monthRaw :: dayRaw :: _ =>
    match jsNumber yearRaw, jsNumber monthRaw, jsNumber dayRaw with
    | some year, some month, some day =>
      if month < 1 ∨ 12 < month ∨ day < 1 ∨ 31 < day then none
      else some ⟨year, month, day⟩
    | _, _, _ => none
  | _ => none

/-- Gregorian leap-year rule, as in ECMAScript DaysInYear.  JavaScript's
remainder is zero exactly when the Euclidean remainder is, so emod is a
faithful model of the divisibility tests. -/
def isLeapYear (y : Int) : Bool := (y % 4 == 0 && y % 100 != 0) || y % 400 == 0

/-- Number of days of a Gregorian year. -/
def daysInYear (y : Int) : Int := if isLeapYear y then 366 else 365

/-- ECMA-262 DayFromYear: the day number (days since 1970-01-01) of
January 1 of the given year.  Math.floor of the float divisions is modelled
by Int.fdiv. -/
def dayFromYear (y : Int) : Int :=
  365 * (y - 1970) + (y - 1969).fdiv 4 - (y - 1901).fdiv 100 + (y - 1601).fdiv 400

/-- Cumulative number of days strictly before the given 1-based month in a
year of the given leapness (ECMA DayWithinYear table). -/
def monthOffset (leap : Bool) (m : Int) : Int :=
  if m = 1 then 0
  else if m = 2 then 31
  else (if m = 3 then 59 else if m = 4 then 90 else if m = 5 then 120
    else if m = 6 then 151 else if m = 7 then 181 else if m = 8 then 212
    else if m = 9 then 243 else if m = 10 then 273 else if m = 11 then 304
    else 334) + (if leap then 1 else 0)

/-- Day number (days since 1970-01-01) of the date written
new Date(year, month - 1, day) in the source, with the 1-based month in
[1,12] (the only way the source constructs dates).  Models ECMA MakeDay:
an out-of-range day argument is absorbed linearly, exactly as JS Date
rolls it over. -/
def jsMakeDay (y m d : Int) : Int := dayFromYear y + monthOffset (isLeapYear y) m + d - 1

/-- ECMA-262 WeekDay on a day number: 0 is Sunday, 6 is Saturday; models
Date.prototype.getDay (1970-01-01, day number 0, was a Thursday). -/
def jsWeekDay (t : Int) : Int := (t + 4).emod 7

/-- Model of new Date(year, month, 0).getDate(): the number of days of the
1-based month of the given year. -/
def daysInMonth (y m : Int) : Int :=
  if m = 2 then (if isLeapYear y then 29 else 28)
  else if m = 4 ∨ m = 6 ∨ m = 9 ∨ m = 11 then 30
  else 31

/-- A calendar-valid date triple: month in range and day within the month. -/
def ValidYmd (t : Ymd) : Prop :=
  1 ≤ t.month ∧ t.month ≤ 12 ∧ 1 ≤ t.day ∧ t.day ≤ daysInMonth t.year t.month

instance (t : Ymd) : Decidable (ValidYmd t) := by
  unfold ValidYmd; infer_instance

/-- Calendar successor of a valid date; models advancing a JS Date by one
day (date.setDate(date.getDate() + 1)). -/
def nextDate (t : Ymd) : Ymd :=
  if t.day < daysInMonth t.year t.month then ⟨t.year, t.month, t.day + 1⟩
  else if t.month < 12 then ⟨t.year, t.month + 1, 1⟩
  else ⟨t.year + 1, 1, 1⟩

/-- Calendar predecessor of a valid date; models
date.setDate(date.getDate() - 1). -/
def prevDate (t : Ymd) : Ymd :=
  if 1 < t.day then ⟨t.year, t.month, t.day - 1⟩
  else if 1 < t.month then ⟨t.year, t.month - 1, daysInMonth t.year (t.month - 1)⟩
  else ⟨t.year - 1, 12, 31⟩

/-- Calendar normalization of a parsed triple whose day may exceed the
month length (parseDateKey bounds the day by 31, so the overflow is at
most 3 days); models the rollover new Date(y, m - 1, d) applies, e.g.
new Date(2025, 1, 30) is 2025-03-02. -/
def normalizeYmd (t : Ymd) : Ymd :=
  if t.day ≤ daysInMonth t.year t.month then t
  else if t.month < 12 then ⟨t.year, t.month + 1, t.day - daysInMonth t.year t.month⟩
  else ⟨t.year + 1, 1, t.day - 31⟩

/-- Advancing a date by n calendar days (n-fold successor). -/
def addDaysYmd (n : Nat) (t : Ymd) : Ymd := nextDate^[n] t

theorem isLeapYear_iff (y : Int) :
    isLeapYear y = true ↔ ((y % 4 = 0 ∧ ¬ y % 100 = 0) ∨ y % 400 = 0) := by
  simp [isLeapYear]

theorem daysInMonth_ge (y m : Int) : 28 ≤ daysInMonth y m := by
  unfold daysInMonth; split_ifs <;> norm_num

theorem daysInMonth_le (y m : Int) : daysInMonth y m ≤ 31 := by
  unfold daysInMonth; split_ifs <;> norm_num

theorem monthOffset_one (L : Bool) : monthOffset L 1 = 0 := by
  norm_num [monthOffset]

theorem daysInMonth_twelve (y : Int) : daysInMonth y 12 = 31 := by
  norm_num [daysInMonth]

theorem monthOffset_succ (y m : Int) (h1 : 1 ≤ m) (h2 : m ≤ 11) :
    monthOffset (isLeapYear y) (m + 1) = monthOffset (isLeapYear y) m + daysInMonth y m := by
  interval_cases m <;> cases h : isLeapYear y <;> norm_num [monthOffset, daysInMonth, h]

theorem monthOffset_twelve (y : Int) :
    monthOffset (isLeapYear y) 12 + 31 = daysInYear y := by
  cases h : isLeapYear y <;> norm_num [monthOffset, daysInYear, h]

theorem dayFromYear_succ (y : Int) : dayFromYear (y + 1) = dayFromYear y + daysInYear y := by
  have hL := isLeapYear_iff y
  unfold dayFromYear daysInYear
  simp only [show ∀ a : Int, a.fdiv 4 = a / 4 from fun a => Int.fdiv_eq_ediv a (by norm_num),
    show ∀ a : Int, a.fdiv 100 = a / 100 from fun a => Int.fdiv_eq_ediv a (by norm_num),
    show ∀ a : Int, a.fdiv 400 = a / 400 from fun a => Int.fdiv_eq_ediv a (by norm_num)]
  cases h : isLeapYear y with
  | false =>
    rw [h] at hL; simp at hL
    simp only [h, Bool.false_eq_true, if_false]
    omega
  | true =>
    rw [h] at hL; simp at hL
    simp only [h, if_true]
    omega

theorem nextDate_valid {t : Ymd} (h : ValidYmd t) : ValidYmd (nextDate t) := by
  obtain ⟨h1, h2, h3, h4⟩ := h
  unfold nextDate ValidYmd
  split_ifs with hd hm <;> dsimp only
  · exact ⟨h1, h2, by omega, by omega⟩
  · exact ⟨by omega, by omega, by norm_num,
      by have := daysInMonth_ge t.year (t.month + 1); omega⟩
  · exact ⟨by norm_num, by norm_num, by norm_num,
      by have := daysInMonth_ge (t.year + 1) 1; omega⟩

theorem nextDate_year_le {t : Ymd} : t.year ≤ (nextDate t).year := by
  unfold nextDate; split_ifs <;> dsimp only <;> omega

theorem jsMakeDay_nextDate {t : Ymd} (h : ValidYmd t) :
    jsMakeDay (nextDate t).year (nextDate t).month (nextDate t).day
      = jsMakeDay t.year t.month t.day + 1 := by
  obtain ⟨h1, h2, h3, h4⟩ := h
  unfold nextDate
  split_ifs with hd hm
  · dsimp only; simp only [jsMakeDay]; ring
  · dsimp only; simp only [jsMakeDay]
    rw [monthOffset_succ t.year t.month h1 (by omega)]
    omega
  · have hm' : t.month = 12 := by omega
    have hd' : t.day = 31 := by
      rw [hm'] at h4 hd; rw [daysInMonth_twelve] at h4 hd; omega
    dsimp only; simp only [jsMakeDay, hm', hd']
    rw [dayFromYear_succ, ← monthOffset_twelve t.year, monthOffset_one]
    omega

theorem jsMakeDay_normalizeYmd {t : Ymd} (h1 : 1 ≤ t.month) (h2 : t.month ≤ 12) :
    jsMakeDay (normalizeYmd t).year (normalizeYmd t).month (normalizeYmd t).day
      = jsMakeDay t.year t.month t.day := by
  unfold normalizeYmd
  split_ifs with hd hm
  · rfl
  · dsimp only; simp only [jsMakeDay]
    rw [monthOffset_succ t.year t.month h1 (by omega)]
    omega
  · have hm' : t.month = 12 := by omega
    dsimp only; simp only [jsMakeDay, hm']
    rw [dayFromYear_succ, ← monthOffset_twelve t.year, monthOffset_one]
    omega

theorem normalizeYmd_valid {t : Ymd} (h1 : 1 ≤ t.month) (h2 : t.month ≤ 12)
    (h3 : 1 ≤ t.day) (h4 : t.day ≤ 31) : ValidYmd (normalizeYmd t) := by
  unfold normalizeYmd ValidYmd
  split_ifs with hd hm
  · exact ⟨h1, h2, h3, hd⟩
  · dsimp only
    refine ⟨by omega, by omega, by omega, ?_⟩
    have := daysInMonth_ge t.year (t.month + 1)
    have := daysInMonth_ge t.year t.month
    omega
  · have hm' : t.month = 12 := by omega
    rw [hm', daysInMonth_twelve] at hd
    dsimp only
    refine ⟨by norm_num, by norm_num, by omega, ?_⟩
    have := daysInMonth_ge (t.year + 1) 1
    omega

theorem normalizeYmd_year_nonneg {t : Ymd} (h : 0 ≤ t.year) : 0 ≤ (normalizeYmd t).year := by
  unfold normalizeYmd
  split_ifs
  · omega
  · dsimp only; omega
  · dsimp only; omega

theorem addDaysYmd_zero (t : Ymd) : addDaysYmd 0 t = t := rfl

theorem addDaysYmd_succ (n : Nat) (t : Ymd) :
    addDaysYmd (n + 1) t = nextDate (addDaysYmd n t) :=
  Function.iterate_succ_apply' nextDate n t

theorem addDaysYmd_succ_inner (n : Nat) (t : Ymd) :
    addDaysYmd (n + 1) t = addDaysYmd n (nextDate t) :=
  Function.iterate_succ_apply nextDate n t

theorem addDaysYmd_valid {t : Ymd} (h : ValidYmd t) (n : Nat) : ValidYmd (addDaysYmd n t) := by
  induction n with
  | zero => exact h
  | succ n ih => rw [addDaysYmd_succ]; exact nextDate_valid ih

theorem jsMakeDay_addDaysYmd {t : Ymd} (h : ValidYmd t) (n : Nat) :
    jsMakeDay (addDaysYmd n t).year (addDaysYmd n t).month (addDaysYmd n t).day
      = jsMakeDay t.year t.month t.day + n := by
  induction n with
  | zero => simp [addDaysYmd_zero]
  | succ n ih =>
    rw [addDaysYmd_succ, jsMakeDay_nextDate (addDaysYmd_valid h n), ih]
    push_cast
    ring

theorem addDaysYmd_year_nonneg {t : Ymd} (h : 0 ≤ t.year) (n : Nat) :
    0 ≤ (addDaysYmd n t).year := by
  induction n with
  | zero => exact h
  | succ n ih => rw [addDaysYmd_succ]; exact le_trans ih nextDate_year_le

theorem digitChar_is_digit : ∀ k : Nat, k < 10 → isDigitChar (Nat.digitChar k) = true := by decide

theorem digitChar_ne_dash : ∀ k : Nat, k < 10 → Nat.digitChar k ≠ '-' := by decide

theorem toDigitsCore_eq (fuel : Nat) : ∀ (n : Nat) (acc : List Char), n < fuel →
    Nat.toDigitsCore 10 fuel n acc = digitsOf n ++ acc := by
  induction fuel with
  | zero => intro n acc h; omega
  | succ fuel ih =>
    intro n acc h
    rw [Nat.toDigitsCore]
    by_cases h10 : n / 10 = 0
    · have hn : n < 10 := by omega
      rw [if_pos h10, digitsOf, if_pos hn, Nat.mod_eq_of_lt hn]
      rfl
    · have hn : ¬ n < 10 := by omega
      rw [if_neg h10, digitsOf, if_neg hn, ih (n / 10) _ (by omega), List.append_assoc]
      rfl

theorem natChars_eq_digitsOf (n : Nat) : natChars n = digitsOf n := by
  have h := toDigitsCore_eq (n + 1) n [] (by omega)
  simpa [natChars, Nat.toDigits] using h

theorem digitsOf_ne_nil (n : Nat) : digitsOf n ≠ [] := by
  rw [digitsOf]
  split_ifs <;> simp

theorem digitsOf_digits (n : Nat) : ∀ c ∈ digitsOf n, isDigitChar c = true := by
  induction n using Nat.strong_induction_on with
  | _ n ih =>
    rw [digitsOf]
    split_ifs with h
    · intro c hc
      simp only [List.mem_singleton] at hc
      subst hc
      exact digitChar_is_digit n h
    · intro c hc
      rcases List.mem_append.mp hc with hc | hc
      · exact ih (n / 10) (by omega) c hc
      · simp only [List.mem_singleton] at hc
        subst hc
        exact digitChar_is_digit (n % 10) (Nat.mod_lt _ (by norm_num))

theorem digitsOf_no_dash (n : Nat) : '-' ∉ digitsOf n := by
  intro hmem
  have := digitsOf_digits n '-' hmem
  simp [isDigitChar] at this

theorem digitsVal_concat (xs : List Char) (c : Char) :
    digitsVal (xs ++ [c]) = 10 * digitsVal xs + (c.toNat - 48) := by
  simp [digitsVal, List.foldl_append]

theorem digitsVal_digitsOf (n : Nat) : digitsVal (digitsOf n) = n := by
  induction n using Nat.strong_induction_on with
  | _ n ih =>
    rw [digitsOf]
    split_ifs with h
    · have hval : ∀ k : Nat, k < 10 → digitsVal [Nat.digitChar k] = k := by decide
      exact hval n h
    · rw [digitsVal_concat, ih (n / 10) (by omega)]
      have hval : ∀ k : Nat, k < 10 → (Nat.digitChar k).toNat - 48 = k := by decide
      rw [hval (n % 10) (Nat.mod_lt _ (by norm_num))]
      omega

theorem digitsVal_zero_cons (cs : List Char) : digitsVal ('0' :: cs) = digitsVal cs := rfl

theorem jsNumber_digitsOf (n : Nat) : jsNumber (digitsOf n) = some (n : Int) := by
  unfold jsNumber
  rw [if_neg (by simp [digitsOf_ne_nil n]), if_pos (List.all_eq_true.mpr (digitsOf_digits n))]
  rw [digitsVal_digitsOf]

theorem padTwo_no_dash {cs : List Char} (h : '-' ∉ cs) : '-' ∉ padTwo cs := by
  unfold padTwo
  split_ifs <;> simp_all

theorem jsNumber_padTwo_digitsOf (n : Nat) : jsNumber (padTwo (digitsOf n)) = some (n : Int) := by
  unfold padTwo
  split_ifs with h2 h1
  · exact jsNumber_digitsOf n
  · unfold jsNumber
    rw [if_neg (by simp), if_pos]
    · rw [digitsVal_zero_cons, digitsVal_digitsOf]
    · refine List.all_eq_true.mpr ?_
      intro c hc
      rcases List.mem_cons.mp hc with hc | hc
      · subst hc; decide
      · exact digitsOf_digits n c hc
  · exfalso
    have h0 := digitsOf_ne_nil n
    have : 0 < (digitsOf n).length := List.length_pos.mpr h0
    omega

theorem splitDash_ne_nil (cs : List Char) : splitDash cs ≠ [] := by
  cases cs with
  | nil => simp [splitDash]
  | cons c rest =>
    rw [splitDash]
    split_ifs
    · simp
    · cases h : splitDash rest <;> simp

theorem splitDash_no_dash {a : List Char} (h : '-' ∉ a) : splitDash a = [a] := by
  induction a with
  | nil => rfl
  | cons c rest ih =>
    have hc : c ≠ '-' := fun hc => h (hc ▸ List.mem_cons_self c rest)
    have hrest : '-' ∉ rest := fun hr => h (List.mem_cons_of_mem c hr)
    rw [splitDash, if_neg hc, ih hrest]

theorem splitDash_append {a : List Char} (r : List Char) (h : '-' ∉ a) :
    splitDash (a ++ '-' :: r) = a :: splitDash r := by
  induction a with
  | nil => simp [splitDash]
  | cons c rest ih =>
    have hc : c ≠ '-' := fun hc => h (hc ▸ List.mem_cons_self c rest)
    have hrest : '-' ∉ rest := fun hr => h (List.mem_cons_of_mem c hr)
    rw [List.cons_append, splitDash, if_neg hc, ih hrest]

theorem splitDash_parts_no_dash (cs : List Char) : ∀ p ∈ splitDash cs, '-' ∉ p := by
  induction cs with
  | nil =>
    intro p hp
    simp [splitDash] at hp
    subst hp; simp
  | cons c rest ih =>
    intro p hp
    rw [splitDash] at hp
    split_ifs at hp with hc
    · rcases List.mem_cons.mp hp with hp | hp
      · subst hp; simp
      · exact ih p hp
    · cases hs : splitDash rest with
      | nil => exact absurd hs (splitDash_ne_nil rest)
      | cons q qs =>
        rw [hs] at hp
        rcases List.mem_cons.mp hp with hp | hp
        · subst hp
          intro hmem
          rcases List.mem_cons.mp hmem with hmem | hmem
          · exact hc hmem.symm
          · exact ih q (hs ▸ List.mem_cons_self q qs) hmem
        · exact ih p (hs ▸ List.mem_cons_of_mem q hp)

theorem intChars_nonneg_eq {y : Int} (h : 0 ≤ y) : intChars y = digitsOf y.toNat := by
  unfold intChars
  rw [if_neg (by omega), natChars_eq_digitsOf]

theorem parseDateKey_toDateKey {y m d : Int} (hy : 0 ≤ y) (hm1 : 1 ≤ m) (hm2 : m ≤ 12)
    (hd1 : 1 ≤ d) (hd2 : d ≤ 31) : parseDateKey (toDateKey y m d) = some ⟨y, m, d⟩ := by
  unfold parseDateKey toDateKey
  show (match splitDash (intChars y ++ '-' :: (padTwo (intChars m) ++ '-' :: padTwo (intChars d))) with
    | yearRaw :: monthRaw :: dayRaw :: _ => _ | _ => none) = _
  rw [intChars_nonneg_eq hy, intChars_nonneg_eq (by omega : (0:Int) ≤ m),
    intChars_nonneg_eq (by omega : (0:Int) ≤ d)]
  rw [splitDash_append _ (digitsOf_no_dash _),
    splitDash_append _ (padTwo_no_dash (digitsOf_no_dash _)),
    splitDash_no_dash (padTwo_no_dash (digitsOf_no_dash _))]
  simp only [jsNumber_digitsOf, jsNumber_padTwo_digitsOf]
  rw [if_neg (by omega)]
  simp only [Option.some.injEq, Ymd.mk.injEq]
  refine ⟨Int.toNat_of_nonneg hy, Int.toNat_of_nonneg (by omega), Int.toNat_of_nonneg (by omega)⟩

theorem toDateKey_inj {y1 m1 d1 y2 m2 d2 : Int}
    (hy1 : 0 ≤ y1) (hm1 : 1 ≤ m1) (hm2 : m1 ≤ 12) (hd1 : 1 ≤ d1) (hd2 : d1 ≤ 31)
    (hy1' : 0 ≤ y2) (hm1' : 1 ≤ m2) (hm2' : m2 ≤ 12) (hd1' : 1 ≤ d2) (hd2' : d2 ≤ 31)
    (h : toDateKey y1 m1 d1 = toDateKey y2 m2 d2) : y1 = y2 ∧ m1 = m2 ∧ d1 = d2 := by
  have e1 := parseDateKey_toDateKey hy1 hm1 hm2 hd1 hd2
  have e2 := parseDateKey_toDateKey hy1' hm1' hm2' hd1' hd2'
  rw [h, e2] at e1
  simp only [Option.some.injEq, Ymd.mk.injEq] at e1
  exact ⟨e1.1.symm, e1.2.1.symm, e1.2.2.symm⟩

theorem jsNumber_nonneg {cs : List Char} {v : Int} (hnd : '-' ∉ cs)
    (h : jsNumber cs = some v) : 0 ≤ v := by
  unfold jsNumber at h
  split_ifs at h with he hd
  · simp at h; omega
  · simp only [Option.some.injEq] at h
    subst h
    positivity
  · split at h
    · exact absurd (List.mem_cons_self _ _) hnd
    · split_ifs at h
      simp only [Option.some.injEq] at h
      subst h
      positivity
    · exact absurd h (by simp)

theorem parseDateKey_ranges {s : String} {t : Ymd} (h : parseDateKey s = some t) :
    0 ≤ t.year ∧ 1 ≤ t.month ∧ t.month ≤ 12 ∧ 1 ≤ t.day ∧ t.day ≤ 31 := by
  unfold parseDateKey at h
  split at h
  case h_2 => exact absurd h (by simp)
  case h_1 yearRaw monthRaw dayRaw rest heq =>
    split at h
    case h_2 => exact absurd h (by simp)
    case h_1 year month day hy hm hd =>
      split_ifs at h with hrange
      simp only [Option.some.injEq] at h
      subst h
      have hyr : yearRaw ∈ splitDash s.data := by rw [heq]; simp
      have hynn := jsNumber_nonneg (splitDash_parts_no_dash s.data yearRaw hyr) hy
      dsimp only
      omega

/-- Model of vernalEquinoxDay: Math.floor(20.8431 + 0.242194 * (year - 1980)
- Math.floor((year - 1980) / 4)), evaluated in exact rational arithmetic
(floor(x - q) = floor(x) - q for integer q; 20.8431 = 20843100 / 10^6 and
0.242194 = 242194 / 10^6).  For the year ranges relevant here the IEEE-754
evaluation of the source agrees with the exact value, since the result is
far from an integer boundary; none of the theorems below depend on the
numeric value of this function. -/
def vernalEquinoxDay (year : Int) : Int :=
  (20843100 + 242194 * (year - 1980)).fdiv 1000000 - (year - 1980).fdiv 4

/-- Model of autumnEquinoxDay, as vernalEquinoxDay with constant 23.2488. -/
def autumnEquinoxDay (year : Int) : Int :=
  (23248800 + 242194 * (year - 1980)).fdiv 1000000 - (year - 1980).fdiv 4

/-- Model of nthWeekdayOfMonth: the day of month of the nth occurrence of
the given weekday (0 = Sunday).  The JS remainder operand
weekday - firstDay + 7 is nonnegative at every call site (weekday is 1 and
firstDay is in [0,6]), where the JS remainder and emod agree. -/
def nthWeekdayOfMonth (year month weekday nth : Int) : Int :=
  let firstDay := jsWeekDay (jsMakeDay year month 1)
  1 + (weekday - firstDay + 7).emod 7 + (nth - 1) * 7

/-- Model of Set.prototype.add on a duplicate-free list (JS Sets keep
insertion order and ignore re-insertion). -/
def setAdd (holidays : List String) (k : String) : List String :=
  if k ∈ holidays then holidays else holidays ++ [k]

/-- The keys added by the fixed-date, moveable, equinox and one-off rules
of buildJapaneseHolidaySet (its lines before the bridge block), with each
add-call's year gate, in source order. -/
def fixedRuleKeys (year : Int) : List String :=
  (if 1949 ≤ year then [toDateKey year 1 1] else [])
  ++ (if 2000 ≤ year then [toDateKey year 1 (nthWeekdayOfMonth year 1 1 2)]
      else if 1949 ≤ year then [toDateKey year 1 15] else [])
  ++ (if 1967 ≤ year then [toDateKey year 2 11] else [])
  ++ (if 2020 ≤ year then [toDateKey year 2 23] else [])
  ++ (if 1949 ≤ year then [toDateKey year 4 29] else [])
  ++ (if 1949 ≤ year then [toDateKey year 5 3] else [])
  ++ (if 2007 ≤ year then [toDateKey year 5 4] else [])
  ++ (if 1949 ≤ year then [toDateKey year 5 5] else [])
  ++ (if 1949 ≤ year then [toDateKey year 3 (vernalEquinoxDay year)] else [])
  ++ (if 1948 ≤ year then [toDateKey year 9 (autumnEquinoxDay year)] else [])
  ++ (if year = 2020 then [toDateKey year 7 23]
      else if year = 2021 then [toDateKey year 7 22]
      else if 2003 ≤ year then [toDateKey year 7 (nthWeekdayOfMonth year 7 1 3)]
      else if 1996 ≤ year then [toDateKey year 7 20] else [])
  ++ (if year = 2020 then [toDateKey year 8 10]
      else if year = 2021 then [toDateKey year 8 8]
      else if 2016 ≤ year then [toDateKey year 8 11] else [])
  ++ (if 2003 ≤ year then [toDateKey year 9 (nthWeekdayOfMonth year 9 1 3)]
      else if 1966 ≤ year then [toDateKey year 9 15] else [])
  ++ (if year = 2020 then [toDateKey year 7 24]
      else if year = 2021 then [toDateKey year 7 23]
      else if 2000 ≤ year then [toDateKey year 10 (nthWeekdayOfMonth year 10 1 2)]
      else if 1966 ≤ year then [toDateKey year 10 10] else [])
  ++ (if 1948 ≤ year then [toDateKey year 11 3] else [])
  ++ (if 1948 ≤ year then [toDateKey year 11 23] else [])
  ++ (if 1989 ≤ year ∧ year ≤ 2018 then [toDateKey year 12 23] else [])
  ++ (if year = 1990 then [toDateKey year 11 12] else [])
  ++ (if year = 1993 then [toDateKey year 6 9] else [])
  ++ (if year = 2019 then [toDateKey year 5 1] else [])
  ++ (if year = 2019 then [toDateKey year 10 22] else [])

/-- The holiday set after the fixed/moveable/equinox/one-off rules. -/
def preBridgeSet (year : Int) : List String := (fixedRuleKeys year).foldl setAdd []

/-- Bridge-day candidate keys: for month 1..12 and day 1..daysInMonth, a
date that is not already a holiday but whose immediately preceding and
following dates both are.  The source computes the neighbours by JS Date
arithmetic on a valid date, modelled by prevDate / nextDate. -/
def bridgeKeys (year : Int) (holidays : List String) : List String :=
  (List.range' 1 12).flatMap (fun m =>
    (List.range' 1 (daysInMonth year (m : Int)).toNat).filterMap (fun d =>
      let t : Ymd := ⟨year, (m : Int), (d : Int)⟩
      let key := toDateKey t.year t.month t.day
      if key ∈ holidays then none
      else
        let p := prevDate t
        let nx := nextDate t
        if toDateKey p.year p.month p.day ∈ holidays ∧ toDateKey nx.year nx.month nx.day ∈ holidays
        then some key else none))

/-- The holiday set produced by rules 1-9: the fixed-rule set, with the
bridge days merged in for year at least 1985 (the source collects them in a
separate set and then adds them, so bridges never chain). -/
def rules19Set (year : Int) : List String :=
  let pre := preBridgeSet year
  if 1985 ≤ year then (bridgeKeys year pre).foldl setAdd pre else pre

/-- Code-unit comparison of character lists: the default
Array.prototype.sort comparator on the ASCII strings of this module. -/
def charListLt : List Char → List Char → Bool
  | [], [] => false
  | [], _ :: _ => true
  | _ :: _, [] => false
  | a :: as, b :: bs =>
    if a.toNat < b.toNat then true
    else if b.toNat < a.toNat then false
    else charListLt as bs

/-- String comparison by code units. -/
def keyLt (a b : String) : Bool := charListLt a.data b.data

/-- Insertion of a key into an ascending list. -/
def insertKeyAsc (k : String) : List String → List String
  | [] => [k]
  | x :: xs => if keyLt x k then x :: insertKeyAsc k xs else k :: x :: xs

/-- Ascending insertion sort; models the snapshot [...holidays].sort() the
substitute-holiday block iterates over. -/
def sortKeys : List String → List String
  | [] => []
  | x :: xs => insertKeyAsc x (sortKeys xs)

/-- The day-by-day advance of the substitute-holiday while-loop: starting
from the day after t, return the first key not in the holiday set.  The
source loop is unbounded; a fuel of one more than the set size is shown
sufficient below (findSubstituteKey_found), so the model with that fuel
computes exactly the key the source adds. -/
def findSubstituteKey (holidays : List String) : Nat → Ymd → Option String
  | 0, _ => none
  | fuel + 1, t =>
    let t' := nextDate t
    let k := toDateKey t'.year t'.month t'.day
    if k ∈ holidays then findSubstituteKey holidays fuel t' else some k

/-- One iteration of the substitute-holiday loop body for a snapshot key:
skip unparseable keys, skip non-Sundays, otherwise add the first free key
after the date. -/
def substituteStep (holidays : List String) (key : String) : List String :=
  match parseDateKey key with
  | none => holidays
  | some t =>
    if jsWeekDay (jsMakeDay t.year t.month t.day) = 0 then
      match findSubstituteKey holidays (holidays.length + 1) (normalizeYmd t) with
      | some k => setAdd holidays k
      | none => holidays
    else holidays

/-- Model of buildJapaneseHolidaySet: rules 1-9, then for year at least
1973 the substitute-holiday pass over the sorted snapshot of the set. -/
def buildJapaneseHolidaySet (year : Int) : List String :=
  let holidays := rules19Set year
  if 1973 ≤ year then (sortKeys holidays).foldl substituteStep holidays else holidays

/-- Model of getJapaneseHolidaySet.  The source memoizes the result per
year in a module-level Map; the cached value equals the rebuilt one (pure
function of the year), so the cache is elided. -/
def getJapaneseHolidaySet (year : Int) : List String := buildJapaneseHolidaySet year

/-- Model of isJapaneseHoliday: membership of the original string (by
exact string equality, as Set.prototype.has) in the holiday set of the
parsed year. -/
def isJapaneseHoliday (dateString : String) : Bool :=
  match parseDateKey dateString with
  | none => false
  | some t => decide (dateString ∈ getJapaneseHolidaySet t.year)

/-- Model of isWeekend. -/
def isWeekend (dateString : String) : Bool :=
  match parseDateKey dateString with
  | none => false
  | some t =>
    let day := jsWeekDay (jsMakeDay t.year t.month t.day)
    decide (day = 0 ∨ day = 6)

/-- Model of isNonWorkingDay. -/
def isNonWorkingDay (dateString : String) : Bool :=
  isWeekend dateString || isJapaneseHoliday dateString

/-- Key of the date n+1 calendar days after t: the candidate the
substitute-holiday while-loop inspects at its loop turn n. -/
def dayKeyAfter (t : Ymd) (n : Nat) : String :=
  let u := addDaysYmd (n + 1) t
  toDateKey u.year u.month u.day

/-- The holiday set at the moment the substitute-holiday loop processes
snapshot key k: the rules 1-9 set after the loop body has run for the
snapshot keys strictly before k in sorted order. -/
def holidaysBeforeKey (year : Int) (k : String) : List String :=
  ((sortKeys (rules19Set year)).takeWhile (fun x => x != k)).foldl substituteStep (rules19Set year)

theorem buildJapaneseHolidaySet_eq (year : Int) :
    buildJapaneseHolidaySet year =
      if 1973 ≤ year then (sortKeys (rules19Set year)).foldl substituteStep (rules19Set year)
      else rules19Set year := rfl

theorem mem_setAdd_self (S : List String) (k : String) : k ∈ setAdd S k := by
  unfold setAdd
  split_ifs with h
  · exact h
  · simp

theorem mem_setAdd_of_mem {S : List String} {x : String} (h : x ∈ S) (k : String) :
    x ∈ setAdd S k := by
  unfold setAdd
  split_ifs with hk
  · exact h
  · exact List.mem_append_left _ h

theorem mem_setAdd_iff {S : List String} {x k : String} :
    x ∈ setAdd S k ↔ x ∈ S ∨ x = k := by
  unfold setAdd
  split_ifs with hk
  · constructor
    · exact Or.inl
    · rintro (h | rfl)
      · exact h
      · exact hk
  · simp

theorem setAdd_nodup {S : List String} (h : S.Nodup) (k : String) : (setAdd S k).Nodup := by
  unfold setAdd
  split_ifs with hk
  · exact h
  · simpa [List.nodup_append] using ⟨h, hk⟩

theorem foldl_setAdd_nodup {S : List String} (h : S.Nodup) (l : List String) :
    (l.foldl setAdd S).Nodup := by
  induction l generalizing S with
  | nil => exact h
  | cons a rest ih => exact ih (setAdd_nodup h a)

theorem mem_foldl_setAdd {x : String} {l S : List String} :
    x ∈ l.foldl setAdd S ↔ x ∈ S ∨ x ∈ l := by
  induction l generalizing S with
  | nil => simp
  | cons a rest ih =>
    rw [List.foldl_cons, ih, mem_setAdd_iff]
    constructor
    · rintro ((h | rfl) | h)
      · exact Or.inl h
      · exact Or.inr (List.mem_cons_self _ _)
      · exact Or.inr (List.mem_cons_of_mem _ h)
    · rintro (h | h)
      · exact Or.inl (Or.inl h)
      · rcases List.mem_cons.mp h with rfl | h
        · exact Or.inl (Or.inr rfl)
        · exact Or.inr h

theorem mem_substituteStep {S : List String} {x : String} (h : x ∈ S) (k : String) :
    x ∈ substituteStep S k := by
  unfold substituteStep
  split
  · exact h
  · split_ifs
    · split
      · exact mem_setAdd_of_mem h _
      · exact h
    · exact h

theorem mem_foldl_substituteStep {S : List String} {x : String} (h : x ∈ S) (l : List String) :
    x ∈ l.foldl substituteStep S := by
  induction l generalizing S with
  | nil => exact h
  | cons a rest ih => exact ih (mem_substituteStep h a)

theorem insertKeyAsc_perm (k : String) (l : List String) :
    List.Perm (insertKeyAsc k l) (k :: l) := by
  induction l with
  | nil => rfl
  | cons x xs ih =>
    rw [insertKeyAsc]
    split_ifs with hlt
    · exact (ih.cons x).trans (List.Perm.swap k x xs)
    · rfl

theorem sortKeys_perm (l : List String) : List.Perm (sortKeys l) l := by
  induction l with
  | nil => rfl
  | cons x xs ih => exact (insertKeyAsc_perm x (sortKeys xs)).trans (ih.cons x)

theorem rules19Set_nodup (year : Int) : (rules19Set year).Nodup := by
  unfold rules19Set preBridgeSet
  split_ifs
  · exact foldl_setAdd_nodup (foldl_setAdd_nodup List.nodup_nil _) _
  · exact foldl_setAdd_nodup List.nodup_nil _

theorem dayKeyAfter_shift (t : Ymd) (n : Nat) :
    dayKeyAfter (nextDate t) n = dayKeyAfter t (n + 1) := by
  unfold dayKeyAfter
  rw [addDaysYmd_succ_inner (n + 1) t]

theorem dayKeyAfter_inj {t : Ymd} (hv : ValidYmd t) (hy : 0 ≤ t.year) {i j : Nat}
    (h : dayKeyAfter t i = dayKeyAfter t j) : i = j := by
  unfold dayKeyAfter at h
  obtain ⟨hvi1, hvi2, hvi3, hvi4⟩ := addDaysYmd_valid hv (i + 1)
  obtain ⟨hvj1, hvj2, hvj3, hvj4⟩ := addDaysYmd_valid hv (j + 1)
  have hyi := addDaysYmd_year_nonneg hy (i + 1)
  have hyj := addDaysYmd_year_nonneg hy (j + 1)
  have hle_i := daysInMonth_le (addDaysYmd (i + 1) t).year (addDaysYmd (i + 1) t).month
  have hle_j := daysInMonth_le (addDaysYmd (j + 1) t).year (addDaysYmd (j + 1) t).month
  obtain ⟨hy', hm', hd'⟩ :=
    toDateKey_inj hyi hvi1 hvi2 hvi3 (by omega) hyj hvj1 hvj2 hvj3 (by omega) h
  have hmi := jsMakeDay_addDaysYmd hv (i + 1)
  have hmj := jsMakeDay_addDaysYmd hv (j + 1)
  rw [hy', hm', hd'] at hmi
  omega

theorem findSubstituteKey_spec (S : List String) :
    ∀ (fuel : Nat) (t : Ymd), (∃ i, i < fuel ∧ dayKeyAfter t i ∉ S) →
      ∃ i, findSubstituteKey S fuel t = some (dayKeyAfter t i) ∧ dayKeyAfter t i ∉ S ∧
        ∀ j, j < i → dayKeyAfter t j ∈ S := by
  intro fuel
  induction fuel with
  | zero =>
    intro t h
    obtain ⟨i, hi, _⟩ := h
    omega
  | succ fuel ih =>
    intro t h
    rw [findSubstituteKey]
    have hcand0 : toDateKey (nextDate t).year (nextDate t).month (nextDate t).day
        = dayKeyAfter t 0 := rfl
    by_cases h0 : dayKeyAfter t 0 ∈ S
    · rw [hcand0, if_pos h0]
      have hex : ∃ i, i < fuel ∧ dayKeyAfter (nextDate t) i ∉ S := by
        obtain ⟨i, hi, hnot⟩ := h
        cases i with
        | zero => exact absurd h0 hnot
        | succ i => exact ⟨i, by omega, by rw [dayKeyAfter_shift]; exact hnot⟩
      obtain ⟨i, hfind, hnot, hleast⟩ := ih (nextDate t) hex
      refine ⟨i + 1, ?_, ?_, ?_⟩
      · rw [hfind, dayKeyAfter_shift]
      · rw [← dayKeyAfter_shift]; exact hnot
      · intro j hj
        cases j with
        | zero => exact h0
        | succ j => rw [← dayKeyAfter_shift]; exact hleast j (by omega)
    · rw [hcand0, if_neg h0]
      exact ⟨0, rfl, h0, fun j hj => by omega⟩

theorem findSubstituteKey_found (S : List String) {t : Ymd} (hv : ValidYmd t)
    (hy : 0 ≤ t.year) :
    ∃ i, findSubstituteKey S (S.length + 1) t = some (dayKeyAfter t i) ∧
      dayKeyAfter t i ∉ S ∧ ∀ j, j < i → dayKeyAfter t j ∈ S := by
  apply findSubstituteKey_spec
  by_contra hall
  push_neg at hall
  have hsub : ((List.range (S.length + 1)).map (dayKeyAfter t)).Subperm S := by
    apply List.Nodup.subperm
    · refine List.Nodup.map_on ?_ (List.nodup_range _)
      intro i _ j _ hij
      exact dayKeyAfter_inj hv hy hij
    · intro x hx
      simp only [List.mem_map, List.mem_range] at hx
      obtain ⟨i, hi, rfl⟩ := hx
      exact hall i hi
  have hlen := hsub.length_le
  simp only [List.length_map, List.length_range] at hlen
  omega

theorem takeWhile_until_mem {k : String} (pre post : List String) (h : k ∉ pre) :
    (pre ++ k :: post).takeWhile (fun x => x != k) = pre := by
  induction pre with
  | nil => simp [List.takeWhile_cons]
  | cons a rest ih =>
    have ha : a ≠ k := fun e => h (e ▸ List.mem_cons_self a rest)
    have hrest : k ∉ rest := fun hk => h (List.mem_cons_of_mem a hk)
    rw [List.cons_append, List.takeWhile_cons, if_pos (by simpa using ha), ih hrest]

theorem substituteStep_sunday {S : List String} {k : String} {t : Ymd}
    (hp : parseDateKey k = some t) (hsun : jsWeekDay (jsMakeDay t.year t.month t.day) = 0)
    {res : String} (hfind : findSubstituteKey S (S.length + 1) (normalizeYmd t) = some res) :
    substituteStep S k = setAdd S res := by
  unfold substituteStep
  rw [hp]
  dsimp only
  rw [if_pos hsun, hfind]

/-- C1: for every year from 1973 on, every holiday key produced by rules
1-9 (rules19Set) that parses to a date falling on a Sunday leads the
substitute pass to add, to the final holiday set returned by
getJapaneseHolidaySet, the first key strictly after that date (advancing
day by day) that is not already in the holiday set at the moment the key
is processed (holidaysBeforeKey; snapshot keys are processed in sorted,
i.e. ascending-date, order).  The index i is the number of already-holiday
days the loop skips, so chained substitutes skip past consecutive
holidays. -/
theorem substitute_holiday_first_free_added (year : Int) (h73 : 1973 ≤ year)
    (k : String) (t : Ymd) (hk : k ∈ rules19Set year) (hp : parseDateKey k = some t)
    (hsun : jsWeekDay (jsMakeDay t.year t.month t.day) = 0) :
    ∃ i : Nat,
      (∀ j : Nat, j < i → dayKeyAfter (normalizeYmd t) j ∈ holidaysBeforeKey year k) ∧
      dayKeyAfter (normalizeYmd t) i ∉ holidaysBeforeKey year k ∧
      dayKeyAfter (normalizeYmd t) i ∈ getJapaneseHolidaySet year := by
  obtain ⟨hy0, hm1, hm2, hd1, hd31⟩ := parseDateKey_ranges hp
  have hvn : ValidYmd (normalizeYmd t) := normalizeYmd_valid hm1 hm2 hd1 hd31
  have hyn : 0 ≤ (normalizeYmd t).year := normalizeYmd_year_nonneg hy0
  have hks : k ∈ sortKeys (rules19Set year) := (sortKeys_perm _).mem_iff.mpr hk
  obtain ⟨pre, post, hsplit⟩ := List.append_of_mem hks
  have hnd : (sortKeys (rules19Set year)).Nodup :=
    (sortKeys_perm _).nodup_iff.mpr (rules19Set_nodup year)
  have hkpre : k ∉ pre := by
    rw [hsplit] at hnd
    have hdisj := List.disjoint_of_nodup_append hnd
    exact fun hkp => hdisj hkp (List.mem_cons_self _ _)
  have hbefore : holidaysBeforeKey year k = pre.foldl substituteStep (rules19Set year) := by
    unfold holidaysBeforeKey
    rw [hsplit, takeWhile_until_mem pre post hkpre]
  obtain ⟨i, hfind, hnot, hleast⟩ :=
    findSubstituteKey_found (pre.foldl substituteStep (rules19Set year)) hvn hyn
  refine ⟨i, ?_, ?_, ?_⟩
  · intro j hj
    rw [hbefore]
    exact hleast j hj
  · rw [hbefore]
    exact hnot
  · show dayKeyAfter (normalizeYmd t) i ∈ buildJapaneseHolidaySet year
    rw [buildJapaneseHolidaySet_eq, if_pos h73, hsplit, List.foldl_append, List.foldl_cons]
    apply mem_foldl_substituteStep
    rw [substituteStep_sunday hp hsun hfind]
    exact mem_setAdd_self _ _

/-- Witness for C1: year 1973, Foundation Day 1973-02-11, a Sunday (the
first substitute holiday in Japanese law was 1973-02-12). -/
theorem substitute_holiday_first_free_added_witness :
    ∃ i : Nat,
      (∀ j : Nat, j < i →
        dayKeyAfter (normalizeYmd ⟨1973, 2, 11⟩) j ∈ holidaysBeforeKey 1973 "1973-02-11") ∧
      dayKeyAfter (normalizeYmd ⟨1973, 2, 11⟩) i ∉ holidaysBeforeKey 1973 "1973-02-11" ∧
      dayKeyAfter (normalizeYmd ⟨1973, 2, 11⟩) i ∈ getJapaneseHolidaySet 1973 :=
  substitute_holiday_first_free_added 1973 (by norm_num) "1973-02-11" ⟨1973, 2, 11⟩
    (by decide) (by decide) (by decide)

/-- Position of a drop relative to the target row (DropPosition). -/
inductive DropPosition where
  | before
  | after
  deriving DecidableEq

/-- Persisted (id, sortOrder) pair (SortOrderItem). -/
structure SortOrderItem where
  id : String
  sortOrder : Int
  deriving DecidableEq

/-- Model of moveItem.  JS array indices are numbers, modelled as Int; the
splice-based remove-then-insert on valid indices is eraseIdx followed by
insertIdx.  The source returns a fresh shallow copy in every branch;
object identity is outside the value model.  The inner none branch of the
element lookup is unreachable under the preceding bounds check. -/
def moveItem {α : Type u} (items : List α) (fromIndex toIndex : Int) : List α :=
  if fromIndex = toIndex then items
  else if fromIndex < 0 ∨ (items.length : Int) ≤ fromIndex
      ∨ toIndex < 0 ∨ (items.length : Int) ≤ toIndex then items
  else
    match items[fromIndex.toNat]? with
    | some moved => (items.eraseIdx fromIndex.toNat).insertIdx toIndex.toNat moved
    | none => items

/-- Model of moveItemByDrop.  The TS constraint T extends (id : string) is
modelled by an explicit id projection; findIndex followed by the index
access is the first matching element (find?). -/
def moveItemByDrop {α : Type u} (idOf : α → String) (items : List α)
    (draggedId overId : String) (position : DropPosition) : List α :=
  if draggedId = overId then items
  else
    match items.find? (fun item => idOf item == draggedId) with
    | none => items
    | some dragged =>
      let remaining := items.filter (fun item => !(idOf item == draggedId))
      match remaining.findIdx? (fun item => idOf item == overId) with
      | none => items
      | some overIndex =>
        let insertIndex := if position = DropPosition.before then overIndex else overIndex + 1
        remaining.take insertIndex ++ dragged :: remaining.drop insertIndex

/-- Model of renumberSortOrders, with the running map index made explicit:
the id at 0-based position pos + k of the original call gets sort order
(pos + k + 1) * step. -/
def renumberFrom (step : Int) : Nat → List String → List SortOrderItem
  | _, [] => []
  | pos, i :: rest => ⟨i, ((pos : Int) + 1) * step⟩ :: renumberFrom step (pos + 1) rest

/-- Model of renumberSortOrders (the source defaults step to 10; the step
is always passed explicitly here). -/
def renumberSortOrders (ids : List String) (step : Int) : List SortOrderItem :=
  renumberFrom step 0 ids

/-- Model of new Map(rows.map(row => [row.id, row.sortOrder])).get(i):
later entries overwrite earlier ones, so the scan prefers the tail. -/
def jsMapGet : List SortOrderItem → String → Option Int
  | [], _ => none
  | r :: rest, i =>
    match jsMapGet rest i with
    | some v => some v
    | none => if r.id = i then some r.sortOrder else none

/-- Model of currentMap.has(i). -/
def jsMapHas (rows : List SortOrderItem) (i : String) : Bool := (jsMapGet rows i).isSome

/-- First normalization pass of buildSortOrderPatches: walk orderedIds and
keep each id that exists in currentRows and has not been seen, threading
the seen set (returned second). -/
def keepKnownIds (rows : List SortOrderItem) (seen : List String) :
    List String → List String × List String
  | [] => ([], seen)
  | i :: rest =>
    if jsMapHas rows i = true ∧ i ∉ seen then
      let p := keepKnownIds rows (i :: seen) rest
      (i :: p.1, p.2)
    else keepKnownIds rows seen rest

/-- Second normalization pass: append the ids of currentRows not yet seen,
in their original order. -/
def appendMissingIds (seen : List String) : List SortOrderItem → List String × List String
  | [] => ([], seen)
  | r :: rest =>
    if r.id ∈ seen then appendMissingIds seen rest
    else
      let p := appendMissingIds (r.id :: seen) rest
      (r.id :: p.1, p.2)

/-- The normalized display order that buildSortOrderPatches renumbers. -/
def normalizedOrderedIds (rows : List SortOrderItem) (orderedIds : List String) : List String :=
  let p1 := keepKnownIds rows [] orderedIds
  p1.1 ++ (appendMissingIds p1.2 rows).1

/-- Model of buildSortOrderPatches: renumber the normalized order and keep
only the entries whose sortOrder differs from the persisted one (a missing
persisted value, undefined, also differs; it cannot occur for normalized
ids). -/
def buildSortOrderPatches (currentRows : List SortOrderItem) (orderedIds : List String)
    (step : Int) : List SortOrderItem :=
  (renumberSortOrders (normalizedOrderedIds currentRows orderedIds) step).filter
    (fun nextRow => jsMapGet currentRows nextRow.id != some nextRow.sortOrder)

/-- Sort order of an id after the returned patches are applied over the
current rows: a patched value wins, otherwise the persisted one remains. -/
def appliedSortOrder (patches currentRows : List SortOrderItem) (i : String) : Option Int :=
  (jsMapGet patches i).or (jsMapGet currentRows i)

theorem perm_getElem_cons_eraseIdx {α : Type u} (l : List α) (n : Nat) (h : n < l.length) :
    List.Perm l (l[n] :: l.eraseIdx n) := by
  conv_lhs => rw [← List.take_append_drop n l, ← List.getElem_cons_drop l n h]
  rw [List.eraseIdx_eq_take_drop_succ]
  exact List.perm_middle

/-- C5: moveItem on distinct valid indices permutes the list (same
elements), puts the element originally at fromIndex at toIndex, and
preserves the relative order of all other elements (removing the moved
element from the result at toIndex gives the input minus the element at
fromIndex, which is exactly remove-then-insert semantics). -/
theorem moveItem_moves (α : Type) (items : List α) (fromIndex toIndex : Int)
    (hf0 : 0 ≤ fromIndex) (hf1 : fromIndex < (items.length : Int))
    (ht0 : 0 ≤ toIndex) (ht1 : toIndex < (items.length : Int))
    (hne : fromIndex ≠ toIndex) :
    List.Perm (moveItem items fromIndex toIndex) items ∧
    (moveItem items fromIndex toIndex)[toIndex.toNat]? = items[fromIndex.toNat]? ∧
    (moveItem items fromIndex toIndex).eraseIdx toIndex.toNat
      = items.eraseIdx fromIndex.toNat := by
  have hf : fromIndex.toNat < items.length := by omega
  have ht : toIndex.toNat < items.length := by omega
  have hlen : (items.eraseIdx fromIndex.toNat).length + 1 = items.length :=
    List.length_eraseIdx_add_one hf
  have htle : toIndex.toNat ≤ (items.eraseIdx fromIndex.toNat).length := by omega
  have hmove : moveItem items fromIndex toIndex
      = (items.eraseIdx fromIndex.toNat).insertIdx toIndex.toNat items[fromIndex.toNat] := by
    unfold moveItem
    rw [if_neg hne, if_neg (by omega), List.getElem?_eq_getElem hf]
  refine ⟨?_, ?_, ?_⟩
  · rw [hmove]
    exact (List.perm_insertIdx _ _ htle).trans (perm_getElem_cons_eraseIdx items _ hf).symm
  · rw [hmove]
    rw [List.getElem?_eq_getElem (by rw [List.length_insertIdx _ _ htle]; omega)]
    rw [List.getElem_insertIdx_self _ _ _ htle, List.getElem?_eq_getElem hf]
  · rw [hmove, List.eraseIdx_insertIdx]

/-- Witness for C5 on a three-element list, moving index 0 to index 2. -/
theorem moveItem_moves_witness :
    List.Perm (moveItem ([10, 20, 30] : List Int) 0 2) [10, 20, 30] ∧
    (moveItem ([10, 20, 30] : List Int) 0 2)[(2 : Int).toNat]?
      = ([10, 20, 30] : List Int)[(0 : Int).toNat]? ∧
    (moveItem ([10, 20, 30] : List Int) 0 2).eraseIdx (2 : Int).toNat
      = ([10, 20, 30] : List Int).eraseIdx (0 : Int).toNat :=
  moveItem_moves Int [10, 20, 30] 0 2 (by norm_num) (by norm_num) (by norm_num)
    (by norm_num) (by norm_num)

/-- C6: every degenerate call is a no-op up to value equality: moveItem
with equal or out-of-range indices, and moveItemByDrop with equal ids or
with a dragged or target id absent from the list, return the input list
unchanged (the source returns a fresh shallow copy, so reference identity,
which is outside the value model, differs while the elements agree; no
branch can throw since every lookup is guarded). -/
theorem degenerate_moves_return_input :
    (∀ (α : Type) (items : List α) (fromIndex toIndex : Int),
      (fromIndex = toIndex ∨ fromIndex < 0 ∨ (items.length : Int) ≤ fromIndex
        ∨ toIndex < 0 ∨ (items.length : Int) ≤ toIndex) →
      moveItem items fromIndex toIndex = items) ∧
    (∀ (α : Type) (idOf : α → String) (items : List α) (draggedId overId : String)
      (position : DropPosition),
      (draggedId = overId ∨ (∀ r ∈ items, idOf r ≠ draggedId)
        ∨ (∀ r ∈ items, idOf r ≠ overId)) →
      moveItemByDrop idOf items draggedId overId position = items) := by
  constructor
  · intro α items fromIndex toIndex h
    unfold moveItem
    by_cases heq : fromIndex = toIndex
    · rw [if_pos heq]
    · rw [if_neg heq, if_pos (by tauto)]
  · intro α idOf items draggedId overId position h
    unfold moveItemByDrop
    by_cases heq : draggedId = overId
    · rw [if_pos heq]
    · rw [if_neg heq]
      rcases h with h | h | h
      · exact absurd h heq
      · rw [List.find?_eq_none.mpr (fun x hx => by simpa using h x hx)]
      · cases hfound : items.find? (fun item => idOf item == draggedId) with
        | none => rfl
        | some dragged =>
          dsimp only
          rw [List.findIdx?_eq_none_iff.mpr ?_]
          intro x hx
          have hxi : x ∈ items := (List.mem_filter.mp hx).1
          simpa using h x hxi

/-- Witness for C6: an out-of-range move and a drop whose dragged id is
absent. -/
theorem degenerate_moves_return_input_witness :
    moveItem ([10, 20, 30] : List Int) (-1) 2 = [10, 20, 30] ∧
    moveItemByDrop (fun s => s) ["a", "b"] "zz" "b" DropPosition.before = ["a", "b"] :=
  ⟨degenerate_moves_return_input.1 Int [10, 20, 30] (-1) 2 (by norm_num),
   degenerate_moves_return_input.2 String (fun s => s) ["a", "b"] "zz" "b" DropPosition.before
     (Or.inr (Or.inl (by decide)))⟩

theorem jsMapGet_cons (r : SortOrderItem) (rest : List SortOrderItem) (i : String) :
    jsMapGet (r :: rest) i =
      match jsMapGet rest i with
      | some v => some v
      | none => if r.id = i then some r.sortOrder else none := rfl

theorem jsMapGet_eq_none {l : List SortOrderItem} {x : String}
    (h : ∀ r ∈ l, r.id ≠ x) : jsMapGet l x = none := by
  induction l with
  | nil => rfl
  | cons r rest ih =>
    rw [jsMapGet_cons, ih (fun s hs => h s (List.mem_cons_of_mem r hs))]
    simp [h r (List.mem_cons_self r rest)]

theorem jsMapGet_some_mem {l : List SortOrderItem} {x : String} {v : Int}
    (h : jsMapGet l x = some v) : (⟨x, v⟩ : SortOrderItem) ∈ l := by
  induction l with
  | nil => simp [jsMapGet] at h
  | cons r rest ih =>
    rw [jsMapGet_cons] at h
    cases hrest : jsMapGet rest x with
    | some w =>
      rw [hrest] at h
      simp only [Option.some.injEq] at h
      subst h
      exact List.mem_cons_of_mem r (ih hrest)
    | none =>
      rw [hrest] at h
      split_ifs at h with hid
      simp only [Option.some.injEq] at h
      have hr : r = ⟨x, v⟩ := by
        cases r with
        | mk rid rv => simp_all
      rw [← hr]
      exact List.mem_cons_self r rest

theorem jsMapGet_isSome_of_mem {l : List SortOrderItem} {r : SortOrderItem}
    (h : r ∈ l) : (jsMapGet l r.id).isSome := by
  induction l with
  | nil => simp at h
  | cons s rest ih =>
    rw [jsMapGet_cons]
    cases hrest : jsMapGet rest r.id with
    | some v => simp
    | none =>
      rcases List.mem_cons.mp h with rfl | hmem
      · rw [if_pos rfl]; rfl
      · have := ih hmem
        rw [hrest] at this
        simp at this

theorem jsMapGet_ne_none_of_mem {l : List SortOrderItem} {x : String} {v : Int}
    (h : (⟨x, v⟩ : SortOrderItem) ∈ l) : jsMapGet l x ≠ none := by
  intro hnone
  have hs := jsMapGet_isSome_of_mem h
  rw [show (⟨x, v⟩ : SortOrderItem).id = x from rfl, hnone] at hs
  simp at hs

theorem jsMapGet_unique {l : List SortOrderItem} {x : String} {v : Int}
    (hmem : (⟨x, v⟩ : SortOrderItem) ∈ l)
    (huni : ∀ r ∈ l, r.id = x → r = ⟨x, v⟩) : jsMapGet l x = some v := by
  induction l with
  | nil => simp at hmem
  | cons r rest ih =>
    rw [jsMapGet_cons]
    cases hrest : jsMapGet rest x with
    | some w =>
      have hw : (⟨x, w⟩ : SortOrderItem) ∈ rest := jsMapGet_some_mem hrest
      have heq := huni ⟨x, w⟩ (List.mem_cons_of_mem r hw) rfl
      simp only [SortOrderItem.mk.injEq] at heq
      rw [heq.2]
    | none =>
      rcases List.mem_cons.mp hmem with heq | hmem'
      · rw [← heq, if_pos rfl]
      · exact absurd hrest (jsMapGet_ne_none_of_mem hmem')

theorem nodup_entries_eq {l : List SortOrderItem}
    (hnd : (l.map SortOrderItem.id).Nodup) :
    ∀ r ∈ l, ∀ s ∈ l, r.id = s.id → r = s := by
  induction l with
  | nil => simp
  | cons a rest ih =>
    simp only [List.map_cons, List.nodup_cons] at hnd
    obtain ⟨hna, hnd'⟩ := hnd
    intro r hr s hs hid
    rcases List.mem_cons.mp hr with rfl | hr' <;> rcases List.mem_cons.mp hs with rfl | hs'
    · rfl
    · exact absurd (hid ▸ List.mem_map_of_mem SortOrderItem.id hs') hna
    · exact absurd (hid ▸ List.mem_map_of_mem SortOrderItem.id hr') (by rw [← hid] at hna ⊢; exact hna)
    · exact ih hnd' r hr' s hs' hid

theorem jsMapGet_at_own_id {rows : List SortOrderItem}
    (hnd : (rows.map SortOrderItem.id).Nodup) {r : SortOrderItem} (hr : r ∈ rows) :
    jsMapGet rows r.id = some r.sortOrder := by
  have hmem : (⟨r.id, r.sortOrder⟩ : SortOrderItem) ∈ rows := hr
  refine jsMapGet_unique hmem ?_
  intro s hs hsid
  exact nodup_entries_eq hnd s hs r hr hsid

theorem renumberFrom_map_id (step : Int) : ∀ (pos : Nat) (ids : List String),
    (renumberFrom step pos ids).map SortOrderItem.id = ids := by
  intro pos ids
  induction ids generalizing pos with
  | nil => rfl
  | cons a rest ih => simp [renumberFrom, ih]

theorem renumberFrom_mem_iff (step : Int) : ∀ (pos : Nat) (ids : List String)
    (r : SortOrderItem),
    r ∈ renumberFrom step pos ids ↔
      ∃ i, ∃ h : i < ids.length,
        r = ⟨ids.get ⟨i, h⟩, ((pos : Int) + (i : Int) + 1) * step⟩ := by
  intro pos ids
  induction ids generalizing pos with
  | nil => simp [renumberFrom]
  | cons a rest ih =>
    intro r
    rw [renumberFrom, List.mem_cons, ih (pos + 1) r]
    constructor
    · rintro (rfl | ⟨i, h, rfl⟩)
      · exact ⟨0, by simp, by simp⟩
      · refine ⟨i + 1, by rw [List.length_cons]; omega, ?_⟩
        simp only [List.get_cons_succ]
        congr 1
        push_cast
        ring
    · rintro ⟨i, h, rfl⟩
      cases i with
      | zero =>
        left
        simp only [SortOrderItem.mk.injEq]
        exact ⟨rfl, by push_cast; ring⟩
      | succ i =>
        right
        refine ⟨i, by rw [List.length_cons] at h; omega, ?_⟩
        simp only [List.get_cons_succ]
        congr 1
        push_cast
        ring

theorem keepKnownIds_spec (rows : List SortOrderItem) :
    ∀ (l seen : List String),
      (keepKnownIds rows seen l).1.Nodup ∧
      (∀ x ∈ (keepKnownIds rows seen l).1, jsMapHas rows x = true ∧ x ∉ seen) ∧
      (∀ x, x ∈ (keepKnownIds rows seen l).2 ↔ x ∈ (keepKnownIds rows seen l).1 ∨ x ∈ seen) := by
  intro l
  induction l with
  | nil => intro seen; simp [keepKnownIds]
  | cons i rest ih =>
    intro seen
    rw [keepKnownIds]
    split_ifs with hcond
    · obtain ⟨ihnd, ihmem, ihseen⟩ := ih (i :: seen)
      dsimp only
      refine ⟨?_, ?_, ?_⟩
      · refine List.nodup_cons.mpr ⟨?_, ihnd⟩
        intro hmem
        exact (ihmem i hmem).2 (List.mem_cons_self i seen)
      · intro x hx
        rcases List.mem_cons.mp hx with rfl | hx'
        · exact hcond
        · obtain ⟨hhas, hnot⟩ := ihmem x hx'
          exact ⟨hhas, fun hs => hnot (List.mem_cons_of_mem i hs)⟩
      · intro x
        rw [ihseen x]
        simp only [List.mem_cons]
        tauto
    · obtain ⟨ihnd, ihmem, ihseen⟩ := ih seen
      exact ⟨ihnd, ihmem, ihseen⟩

theorem appendMissingIds_spec :
    ∀ (rows : List SortOrderItem) (seen : List String),
      (appendMissingIds seen rows).1.Nodup ∧
      (∀ x ∈ (appendMissingIds seen rows).1, (∃ r ∈ rows, r.id = x) ∧ x ∉ seen) := by
  intro rows
  induction rows with
  | nil => intro seen; simp [appendMissingIds]
  | cons r rest ih =>
    intro seen
    rw [appendMissingIds]
    split_ifs with hcond
    · obtain ⟨ihnd, ihmem⟩ := ih seen
      refine ⟨ihnd, ?_⟩
      intro x hx
      obtain ⟨⟨s, hs, hsid⟩, hnot⟩ := ihmem x hx
      exact ⟨⟨s, List.mem_cons_of_mem r hs, hsid⟩, hnot⟩
    · obtain ⟨ihnd, ihmem⟩ := ih (r.id :: seen)
      dsimp only
      refine ⟨?_, ?_⟩
      · refine List.nodup_cons.mpr ⟨?_, ihnd⟩
        intro hmem
        exact (ihmem r.id hmem).2 (List.mem_cons_self _ _)
      · intro x hx
        rcases List.mem_cons.mp hx with rfl | hx'
        · exact ⟨⟨r, List.mem_cons_self r rest, rfl⟩, hcond⟩
        · obtain ⟨⟨s, hs, hsid⟩, hnot⟩ := ihmem x hx'
          exact ⟨⟨s, List.mem_cons_of_mem r hs, hsid⟩,
            fun hmem => hnot (List.mem_cons_of_mem _ hmem)⟩

theorem normalizedOrderedIds_nodup (rows : List SortOrderItem) (orderedIds : List String) :
    (normalizedOrderedIds rows orderedIds).Nodup := by
  unfold normalizedOrderedIds
  obtain ⟨h1nd, h1mem, h1seen⟩ := keepKnownIds_spec rows orderedIds []
  obtain ⟨h2nd, h2mem⟩ := appendMissingIds_spec rows (keepKnownIds rows [] orderedIds).2
  rw [List.nodup_append]
  refine ⟨h1nd, h2nd, ?_⟩
  intro x hx1 hx2
  exact (h2mem x hx2).2 ((h1seen x).mpr (Or.inl hx1))

theorem normalizedOrderedIds_isSome (rows : List SortOrderItem) (orderedIds : List String) :
    ∀ x ∈ normalizedOrderedIds rows orderedIds, (jsMapGet rows x).isSome := by
  unfold normalizedOrderedIds
  obtain ⟨h1nd, h1mem, h1seen⟩ := keepKnownIds_spec rows orderedIds []
  obtain ⟨h2nd, h2mem⟩ := appendMissingIds_spec rows (keepKnownIds rows [] orderedIds).2
  intro x hx
  rcases List.mem_append.mp hx with hx1 | hx2
  · exact (h1mem x hx1).1
  · obtain ⟨⟨r, hr, rfl⟩, _⟩ := h2mem x hx2
    exact jsMapGet_isSome_of_mem hr

/-- C2: for every current rows, desired order and positive step, reading
the sort orders after the returned patches are applied over the current
rows, in the reconciled display order (normalizedOrderedIds), gives
exactly step, 2*step, 3*step, ...: the value at 0-based display position i
is (i+1)*step, hence the sequence starts at step, is spaced by exactly
step, and is strictly increasing. -/
theorem buildSortOrderPatches_reconciles (currentRows : List SortOrderItem)
    (orderedIds : List String) (step : Int) (hstep : 0 < step) :
    (∀ (i : Nat) (h : i < (normalizedOrderedIds currentRows orderedIds).length),
      appliedSortOrder (buildSortOrderPatches currentRows orderedIds step) currentRows
          ((normalizedOrderedIds currentRows orderedIds).get ⟨i, h⟩)
        = some (((i : Int) + 1) * step)) ∧
    (∀ (i j : Nat) (hi : i < (normalizedOrderedIds currentRows orderedIds).length)
      (hj : j < (normalizedOrderedIds currentRows orderedIds).length), i < j →
      ∀ vi vj : Int,
        appliedSortOrder (buildSortOrderPatches currentRows orderedIds step) currentRows
            ((normalizedOrderedIds currentRows orderedIds).get ⟨i, hi⟩) = some vi →
        appliedSortOrder (buildSortOrderPatches currentRows orderedIds step) currentRows
            ((normalizedOrderedIds currentRows orderedIds).get ⟨j, hj⟩) = some vj →
        vi < vj) := by
  have hnd := normalizedOrderedIds_nodup currentRows orderedIds
  have hsome := normalizedOrderedIds_isSome currentRows orderedIds
  have hmain : ∀ (i : Nat) (h : i < (normalizedOrderedIds currentRows orderedIds).length),
      appliedSortOrder (buildSortOrderPatches currentRows orderedIds step) currentRows
          ((normalizedOrderedIds currentRows orderedIds).get ⟨i, h⟩)
        = some (((i : Int) + 1) * step) := by
    intro i h
    set norm := normalizedOrderedIds currentRows orderedIds with hnorm
    set idx := norm.get ⟨i, h⟩ with hidx
    set v : Int := ((i : Int) + 1) * step with hv
    have hentry : (⟨idx, v⟩ : SortOrderItem) ∈ renumberSortOrders norm step := by
      rw [renumberSortOrders, renumberFrom_mem_iff]
      exact ⟨i, h, by rw [hidx, hv]; congr 1; push_cast; ring⟩
    have hmapnd : ((renumberSortOrders norm step).map SortOrderItem.id).Nodup := by
      rw [renumberSortOrders, renumberFrom_map_id]
      exact hnd
    have huni : ∀ r ∈ renumberSortOrders norm step, r.id = idx → r = ⟨idx, v⟩ := by
      intro r hr hrid
      exact nodup_entries_eq hmapnd r hr ⟨idx, v⟩ hentry hrid
    by_cases hp : jsMapGet currentRows idx = some v
    · have hnone : jsMapGet (buildSortOrderPatches currentRows orderedIds step) idx = none := by
        apply jsMapGet_eq_none
        intro r hr hrid
        unfold buildSortOrderPatches at hr
        obtain ⟨hrmem, hpr⟩ := List.mem_filter.mp hr
        rw [huni r hrmem hrid] at hpr
        simp only [bne_iff_ne, ne_eq, decide_eq_true_eq] at hpr
        exact hpr hp
      rw [appliedSortOrder, hnone, Option.none_or]
      exact hp
    · have hkeep : (⟨idx, v⟩ : SortOrderItem) ∈ buildSortOrderPatches currentRows orderedIds step := by
        unfold buildSortOrderPatches
        refine List.mem_filter.mpr ⟨hentry, ?_⟩
        simpa using hp
      have huni' : ∀ r ∈ buildSortOrderPatches currentRows orderedIds step,
          r.id = idx → r = ⟨idx, v⟩ := by
        intro r hr hrid
        unfold buildSortOrderPatches at hr
        exact huni r (List.mem_filter.mp hr).1 hrid
      rw [appliedSortOrder, jsMapGet_unique hkeep huni']
      rfl
  refine ⟨hmain, ?_⟩
  intro i j hi hj hij vi vj hvi hvj
  rw [hmain i hi] at hvi
  rw [hmain j hj] at hvj
  simp only [Option.some.injEq] at hvi hvj
  subst hvi
  subst hvj
  have hlt : ((i : Int) + 1) < ((j : Int) + 1) := by exact_mod_cast Nat.succ_lt_succ hij
  exact mul_lt_mul_of_pos_right hlt hstep

/-- Witness for C2 on two rows with the order reversed: display position 0
gets sort order 10. -/
theorem buildSortOrderPatches_reconciles_witness :
    appliedSortOrder (buildSortOrderPatches [⟨"a", 10⟩, ⟨"b", 20⟩] ["b", "a"] 10)
        [⟨"a", 10⟩, ⟨"b", 20⟩]
        ((normalizedOrderedIds [⟨"a", 10⟩, ⟨"b", 20⟩] ["b", "a"]).get ⟨0, by decide⟩)
      = some ((((0 : Nat) : Int) + 1) * 10) :=
  (buildSortOrderPatches_reconciles [⟨"a", 10⟩, ⟨"b", 20⟩] ["b", "a"] 10 (by norm_num)).1
    0 (by decide)

theorem keepKnownIds_all (rows : List SortOrderItem) :
    ∀ (l seen : List String), l.Nodup → (∀ x ∈ l, jsMapHas rows x = true ∧ x ∉ seen) →
      (keepKnownIds rows seen l).1 = l ∧
      (∀ x, x ∈ (keepKnownIds rows seen l).2 ↔ x ∈ l ∨ x ∈ seen) := by
  intro l
  induction l with
  | nil =>
    intro seen _ _
    simp [keepKnownIds]
  | cons i rest ih =>
    intro seen hnd hall
    rw [keepKnownIds]
    obtain ⟨hhead, hnd'⟩ := List.nodup_cons.mp hnd
    rw [if_pos (hall i (List.mem_cons_self i rest))]
    have hall' : ∀ x ∈ rest, jsMapHas rows x = true ∧ x ∉ (i :: seen) := by
      intro x hx
      refine ⟨(hall x (List.mem_cons_of_mem i hx)).1, ?_⟩
      intro hmem
      rcases List.mem_cons.mp hmem with rfl | hmem'
      · exact hhead hx
      · exact (hall x (List.mem_cons_of_mem i hx)).2 hmem'
    obtain ⟨ih1, ih2⟩ := ih (i :: seen) hnd' hall'
    dsimp only
    rw [ih1]
    refine ⟨rfl, ?_⟩
    intro x
    rw [ih2 x]
    simp only [List.mem_cons]
    tauto

theorem appendMissingIds_none (seen : List String) :
    ∀ rows : List SortOrderItem, (∀ r ∈ rows, r.id ∈ seen) →
      (appendMissingIds seen rows).1 = [] := by
  intro rows
  induction rows with
  | nil => intro _; rfl
  | cons r rest ih =>
    intro h
    rw [appendMissingIds, if_pos (h r (List.mem_cons_self r rest))]
    exact ih (fun s hs => h s (List.mem_cons_of_mem r hs))

theorem normalizedOrderedIds_exact {currentRows : List SortOrderItem}
    (hnd : (currentRows.map SortOrderItem.id).Nodup) :
    normalizedOrderedIds currentRows (currentRows.map SortOrderItem.id)
      = currentRows.map SortOrderItem.id := by
  have hall : ∀ x ∈ currentRows.map SortOrderItem.id,
      jsMapHas currentRows x = true ∧ x ∉ ([] : List String) := by
    intro x hx
    obtain ⟨r, hr, rfl⟩ := List.mem_map.mp hx
    exact ⟨jsMapGet_isSome_of_mem hr, by simp⟩
  obtain ⟨h1, h2⟩ :=
    keepKnownIds_all currentRows (currentRows.map SortOrderItem.id) [] hnd hall
  have hnone : (appendMissingIds
      (keepKnownIds currentRows [] (currentRows.map SortOrderItem.id)).2 currentRows).1 = [] := by
    apply appendMissingIds_none
    intro r hr
    rw [h2 r.id]
    exact Or.inl (List.mem_map_of_mem SortOrderItem.id hr)
  show (keepKnownIds currentRows [] (currentRows.map SortOrderItem.id)).1
      ++ (appendMissingIds
        (keepKnownIds currentRows [] (currentRows.map SortOrderItem.id)).2 currentRows).1
      = currentRows.map SortOrderItem.id
  rw [h1, hnone, List.append_nil]

/-- C3 counterexample: orderedIds matches the current order exactly, yet
the returned patch sequence is not empty, because the persisted sort order
5 is not the canonical first value 1 * 10 and renumbering is purely
positional. -/
theorem buildSortOrderPatches_unchanged_counterexample :
    buildSortOrderPatches [⟨"a", 5⟩] ["a"] 10 ≠ [] := by decide

/-- C3 (amended): buildSortOrderPatches returns the empty sequence when
orderedIds matches the current order exactly, provided the current rows
have duplicate-free ids and already carry the canonical (position+1)*step
sort orders; without the canonical-numbering condition the unchanged order
still produces patches (see the counterexample). -/
theorem buildSortOrderPatches_unchanged_canonical_empty
    (currentRows : List SortOrderItem) (orderedIds : List String) (step : Int)
    (hnd : (currentRows.map SortOrderItem.id).Nodup)
    (hord : orderedIds = currentRows.map SortOrderItem.id)
    (hcanon : ∀ (i : Nat) (h : i < currentRows.length),
      (currentRows.get ⟨i, h⟩).sortOrder = ((i : Int) + 1) * step) :
    buildSortOrderPatches currentRows orderedIds step = [] := by
  subst hord
  unfold buildSortOrderPatches
  rw [normalizedOrderedIds_exact hnd]
  apply List.filter_eq_nil_iff.mpr
  intro e he
  rw [renumberSortOrders, renumberFrom_mem_iff] at he
  obtain ⟨i, hlen, rfl⟩ := he
  have hlen' : i < currentRows.length := by simpa using hlen
  simp only [bne_iff_ne, ne_eq, Decidable.not_not]
  have hget : (currentRows.map SortOrderItem.id).get ⟨i, hlen⟩
      = (currentRows.get ⟨i, hlen'⟩).id := by
    simp [List.get_eq_getElem, List.getElem_map]
  rw [hget, jsMapGet_at_own_id hnd (List.get_mem currentRows i hlen')]
  rw [hcanon i hlen']
  congr 1
  push_cast
  ring

/-- Witness for the amended C3: two canonically numbered rows with the
order unchanged produce no patches. -/
theorem buildSortOrderPatches_unchanged_canonical_empty_witness :
    buildSortOrderPatches [⟨"a", 10⟩, ⟨"b", 20⟩] ["a", "b"] 10 = [] :=
  buildSortOrderPatches_unchanged_canonical_empty [⟨"a", 10⟩, ⟨"b", 20⟩] ["a", "b"] 10
    (by decide) (by decide) (by decide)

/-- C7: on any string that does not parse into three integer components
(parseDateKey gives null), the boolean predicates fail soft: isWeekend,
isJapaneseHoliday and isNonWorkingDay all return false; as total
functions of the model they cannot throw. -/
theorem unparseable_predicates_false (s : String) (h : parseDateKey s = none) :
    isWeekend s = false ∧ isJapaneseHoliday s = false ∧ isNonWorkingDay s = false := by
  have hw : isWeekend s = false := by unfold isWeekend; rw [h]
  have hh : isJapaneseHoliday s = false := by unfold isJapaneseHoliday; rw [h]
  refine ⟨hw, hh, ?_⟩
  unfold isNonWorkingDay
  rw [hw, hh]
  rfl

/-- Witness for C7 on an unparseable string. -/
theorem unparseable_predicates_false_witness :
    isWeekend "hello" = false ∧ isJapaneseHoliday "hello" = false ∧
      isNonWorkingDay "hello" = false :=
  unparseable_predicates_false "hello" (by decide)

/-- C10: a parseable string whose day is within [1,31] but exceeds its
month length is not categorically a non-weekend: isWeekend equals
isWeekend of the canonical key of the calendar-normalized rolled-over
date, exactly as JS Date normalizes e.g. 2025-02-30 to 2025-03-02. -/
theorem isWeekend_rollover (s : String) (t : Ymd) (hp : parseDateKey s = some t)
    (hroll : daysInMonth t.year t.month < t.day) :
    isWeekend s
      = isWeekend (toDateKey (normalizeYmd t).year (normalizeYmd t).month
          (normalizeYmd t).day) := by
  obtain ⟨hy0, hm1, hm2, hd1, hd31⟩ := parseDateKey_ranges hp
  obtain ⟨hv1, hv2, hv3, hv4⟩ := normalizeYmd_valid hm1 hm2 hd1 hd31
  have hyn := normalizeYmd_year_nonneg (t := t) hy0
  have hle := daysInMonth_le (normalizeYmd t).year (normalizeYmd t).month
  have hp2 : parseDateKey (toDateKey (normalizeYmd t).year (normalizeYmd t).month
      (normalizeYmd t).day) = some (normalizeYmd t) :=
    parseDateKey_toDateKey hyn hv1 hv2 hv3 (by omega)
  unfold isWeekend
  rw [hp, hp2]
  dsimp only
  rw [jsMakeDay_normalizeYmd hm1 hm2]

/-- Witness for C10: 2025-02-30 rolls over to 2025-03-02, a Sunday, so the
predicate is in particular not false there. -/
theorem isWeekend_rollover_witness :
    parseDateKey "2025-02-30" = some ⟨2025, 2, 30⟩ ∧
    daysInMonth 2025 2 < 30 ∧
    isWeekend "2025-02-30"
      = isWeekend (toDateKey (normalizeYmd ⟨2025, 2, 30⟩).year
          (normalizeYmd ⟨2025, 2, 30⟩).month (normalizeYmd ⟨2025, 2, 30⟩).day) ∧
    isWeekend "2025-02-30" = true :=
  ⟨by decide, by decide,
   isWeekend_rollover "2025-02-30" ⟨2025, 2, 30⟩ (by decide) (by decide), by decide⟩

theorem fixedRuleKeys_shape (year : Int) :
    ∀ s ∈ fixedRuleKeys year, ∃ m d : Int, 1 ≤ m ∧ m ≤ 12 ∧ s = toDateKey year m d := by
  intro s hs
  unfold fixedRuleKeys at hs
  simp only [List.mem_append, or_assoc] at hs
  rcases hs with hs | hs | hs | hs | hs | hs | hs | hs | hs | hs | hs | hs | hs | hs | hs | hs |
    hs | hs | hs | hs | hs <;>
  · split_ifs at hs <;>
    first
      | exact absurd hs (List.not_mem_nil s)
      | (rw [List.mem_singleton] at hs
         subst hs
         exact ⟨_, _, by norm_num, by norm_num, rfl⟩)

theorem preBridgeSet_shape (year : Int) :
    ∀ s ∈ preBridgeSet year, ∃ m d : Int, 1 ≤ m ∧ m ≤ 12 ∧ s = toDateKey year m d := by
  intro s hs
  unfold preBridgeSet at hs
  rcases mem_foldl_setAdd.mp hs with hs | hs
  · simp at hs
  · exact fixedRuleKeys_shape year s hs

theorem bridgeKeys_shape (year : Int) (holidays : List String) :
    ∀ s ∈ bridgeKeys year holidays,
      ∃ m d : Int, 1 ≤ m ∧ m ≤ 12 ∧ s = toDateKey year m d := by
  intro s hs
  unfold bridgeKeys at hs
  simp only [List.mem_flatMap, List.mem_filterMap] at hs
  obtain ⟨m, hm, d, hd, hf⟩ := hs
  have hm' := List.mem_range'_1.mp hm
  split_ifs at hf
  simp only [Option.some.injEq] at hf
  subst hf
  exact ⟨(m : Int), (d : Int), by exact_mod_cast hm'.1, by omega, rfl⟩

theorem rules19Set_shape (year : Int) :
    ∀ s ∈ rules19Set year, ∃ m d : Int, 1 ≤ m ∧ m ≤ 12 ∧ s = toDateKey year m d := by
  intro s hs
  unfold rules19Set at hs
  split_ifs at hs
  · rcases mem_foldl_setAdd.mp hs with hs | hs
    · exact preBridgeSet_shape year s hs
    · exact bridgeKeys_shape year (preBridgeSet year) s hs
  · exact preBridgeSet_shape year s hs

theorem findSubstituteKey_shape (S : List String) :
    ∀ (fuel : Nat) (t : Ymd) (k : String), findSubstituteKey S fuel t = some k →
      ∃ u : Ymd, (ValidYmd t → ValidYmd u) ∧ (t.year ≤ u.year) ∧
        k = toDateKey u.year u.month u.day := by
  intro fuel
  induction fuel with
  | zero => intro t k h; simp [findSubstituteKey] at h
  | succ fuel ih =>
    intro t k h
    rw [findSubstituteKey] at h
    split_ifs at h with hmem
    · obtain ⟨u, hvu, hyu, hk⟩ := ih (nextDate t) k h
      exact ⟨u, fun hv => hvu (nextDate_valid hv), le_trans nextDate_year_le hyu, hk⟩
    · simp only [Option.some.injEq] at h
      exact ⟨nextDate t, nextDate_valid, nextDate_year_le, h.symm⟩

theorem substituteStep_shape {S : List String} {k s : String}
    (hs : s ∈ substituteStep S k) :
    s ∈ S ∨ ∃ u : Ymd, ValidYmd u ∧ 0 ≤ u.year ∧ s = toDateKey u.year u.month u.day := by
  unfold substituteStep at hs
  split at hs
  · exact Or.inl hs
  · rename_i t hp
    split_ifs at hs
    · split at hs
      · rename_i res hfind
        rcases mem_setAdd_iff.mp hs with hmem | rfl
        · exact Or.inl hmem
        · obtain ⟨hy0, hm1, hm2, hd1, hd31⟩ := parseDateKey_ranges hp
          obtain ⟨u, hvu, hyu, hk⟩ := findSubstituteKey_shape S _ _ _ hfind
          refine Or.inr ⟨u, hvu (normalizeYmd_valid hm1 hm2 hd1 hd31), ?_, hk⟩
          have := normalizeYmd_year_nonneg (t := t) hy0
          omega
      · exact Or.inl hs
    · exact Or.inl hs

theorem foldl_substituteStep_shape {S : List String} {s : String} (l : List String)
    (hs : s ∈ l.foldl substituteStep S) :
    s ∈ S ∨ ∃ u : Ymd, ValidYmd u ∧ 0 ≤ u.year ∧ s = toDateKey u.year u.month u.day := by
  induction l generalizing S with
  | nil => exact Or.inl hs
  | cons a rest ih =>
    rw [List.foldl_cons] at hs
    rcases ih hs with hmem | hshape
    · exact substituteStep_shape hmem
    · exact Or.inr hshape

theorem holidaySet_shape {year : Int} (hy : 0 ≤ year) {s : String}
    (hs : s ∈ buildJapaneseHolidaySet year) :
    ∃ y m d : Int, 0 ≤ y ∧ 1 ≤ m ∧ m ≤ 12 ∧ s = toDateKey y m d := by
  have hrules : ∀ x ∈ rules19Set year,
      ∃ y m d : Int, 0 ≤ y ∧ 1 ≤ m ∧ m ≤ 12 ∧ x = toDateKey y m d := by
    intro x hx
    obtain ⟨m, d, hm1, hm2, hkey⟩ := rules19Set_shape year x hx
    exact ⟨year, m, d, hy, hm1, hm2, hkey⟩
  rw [buildJapaneseHolidaySet_eq] at hs
  split_ifs at hs
  · rcases foldl_substituteStep_shape _ hs with hmem | ⟨u, ⟨hm1, hm2, _, _⟩, hyu, hk⟩
    · exact hrules s hmem
    · exact ⟨u.year, u.month, u.day, hyu, hm1, hm2, hk⟩
  · exact hrules s hs

theorem padTwo_length (cs : List Char) : 2 ≤ (padTwo cs).length := by
  unfold padTwo
  split_ifs with h2 h1
  · exact h2
  · simp only [List.length_cons]
    omega
  · simp

theorem digitsOf_length_one {n : Nat} (h : n < 10) : (digitsOf n).length = 1 := by
  rw [digitsOf, if_pos h]
  rfl

theorem dash_split_eq {a : List Char} : ∀ {b u v : List Char}, '-' ∉ a → '-' ∉ b →
    a ++ '-' :: u = b ++ '-' :: v → a = b ∧ u = v := by
  induction a with
  | nil =>
    intro b v u _ hb h
    cases b with
    | nil => simpa using h
    | cons c b' =>
      simp only [List.nil_append, List.cons_append, List.cons.injEq] at h
      have hc : '-' ∈ c :: b' := by rw [h.1]; exact List.mem_cons_self c b'
      exact absurd hc hb
  | cons x a' ih =>
    intro b v u ha hb h
    cases b with
    | nil =>
      simp only [List.cons_append, List.nil_append, List.cons.injEq] at h
      have hc : '-' ∈ x :: a' := by rw [← h.1]; exact List.mem_cons_self x a'
      exact absurd hc ha
    | cons c b' =>
      simp only [List.cons_append, List.cons.injEq] at h
      obtain ⟨h1, h2⟩ := h
      have ha' : '-' ∉ a' := fun hm => ha (List.mem_cons_of_mem x hm)
      have hb' : '-' ∉ b' := fun hm => hb (List.mem_cons_of_mem c hm)
      obtain ⟨e1, e2⟩ := ih ha' hb' h2
      exact ⟨by rw [h1, e1], e2⟩

/-- The non-padded but numerically equivalent rendering of a date key
(e.g. 2026-2-11 instead of 2026-02-11): the same template literal without
the padStart calls.  Used to state C9. -/
def unpaddedDateKey (y m d : Int) : String :=
  ⟨intChars y ++ '-' :: (intChars m ++ '-' :: intChars d)⟩

theorem parseDateKey_unpaddedDateKey {y m d : Int} (hy : 0 ≤ y) (hm1 : 1 ≤ m) (hm2 : m ≤ 12)
    (hd1 : 1 ≤ d) (hd2 : d ≤ 31) : parseDateKey (unpaddedDateKey y m d) = some ⟨y, m, d⟩ := by
  unfold parseDateKey unpaddedDateKey
  show (match splitDash (intChars y ++ '-' :: (intChars m ++ '-' :: intChars d)) with
    | yearRaw :: monthRaw :: dayRaw :: _ => _ | _ => none) = _
  rw [intChars_nonneg_eq hy, intChars_nonneg_eq (by omega : (0:Int) ≤ m),
    intChars_nonneg_eq (by omega : (0:Int) ≤ d)]
  rw [splitDash_append _ (digitsOf_no_dash _), splitDash_append _ (digitsOf_no_dash _),
    splitDash_no_dash (digitsOf_no_dash _)]
  simp only [jsNumber_digitsOf]
  rw [if_neg (by omega)]
  simp only [Option.some.injEq, Ymd.mk.injEq]
  exact ⟨Int.toNat_of_nonneg hy, Int.toNat_of_nonneg (by omega), Int.toNat_of_nonneg (by omega)⟩

/-- C9: isJapaneseHoliday tests membership by exact string equality
against keys with zero-padded two-digit month and day, so for a holiday
date whose month or day is a single digit the canonical padded key is
reported a holiday while the non-padded but numerically equivalent key is
not. -/
theorem holiday_key_padding (y m d : Int)
    (hy : 0 ≤ y) (hm1 : 1 ≤ m) (hm12 : m ≤ 12) (hd1 : 1 ≤ d) (hd31 : d ≤ 31)
    (hsingle : m ≤ 9 ∨ d ≤ 9)
    (hhol : toDateKey y m d ∈ buildJapaneseHolidaySet y) :
    isJapaneseHoliday (toDateKey y m d) = true ∧
    isJapaneseHoliday (unpaddedDateKey y m d) = false := by
  constructor
  · unfold isJapaneseHoliday
    rw [parseDateKey_toDateKey hy hm1 hm12 hd1 hd31]
    dsimp only
    exact decide_eq_true hhol
  · unfold isJapaneseHoliday
    rw [parseDateKey_unpaddedDateKey hy hm1 hm12 hd1 hd31]
    dsimp only
    apply decide_eq_false
    intro hmem
    obtain ⟨y2, m2, d2, hy2, hm21, hm22, heq⟩ := holidaySet_shape hy hmem
    have hdata : intChars y ++ '-' :: (intChars m ++ '-' :: intChars d)
        = intChars y2 ++ '-' :: (padTwo (intChars m2) ++ '-' :: padTwo (intChars d2)) :=
      congrArg String.data heq
    rw [intChars_nonneg_eq hy, intChars_nonneg_eq (by omega : (0:Int) ≤ m),
      intChars_nonneg_eq (by omega : (0:Int) ≤ d),
      intChars_nonneg_eq hy2, intChars_nonneg_eq (by omega : (0:Int) ≤ m2)] at hdata
    obtain ⟨_, hrest⟩ := dash_split_eq (digitsOf_no_dash _) (digitsOf_no_dash _) hdata
    obtain ⟨hmeq, hdeq⟩ := dash_split_eq (digitsOf_no_dash _)
      (padTwo_no_dash (digitsOf_no_dash _)) hrest
    rcases hsingle with hm9 | hd9
    · have h1 : (digitsOf m.toNat).length = 1 := digitsOf_length_one (by omega)
      have h2 := padTwo_length (digitsOf m2.toNat)
      rw [hmeq] at h1
      omega
    · have h1 : (digitsOf d.toNat).length = 1 := digitsOf_length_one (by omega)
      have h2 := padTwo_length (intChars d2)
      rw [hdeq] at h1
      omega

/-- Witness for C9: Foundation Day 1984-02-11 and its non-padded variant
1984-2-11. -/
theorem holiday_key_padding_witness :
    isJapaneseHoliday (toDateKey 1984 2 11) = true ∧
    isJapaneseHoliday (unpaddedDateKey 1984 2 11) = false :=
  holiday_key_padding 1984 2 11 (by norm_num) (by norm_num) (by norm_num) (by norm_num)
    (by norm_num) (Or.inl (by norm_num)) (by decide)

/-- Model of date-fns parseISO restricted to the plain YYYY-MM-DD calendar
date form this application passes it: four digit characters, a dash, two
digits, a dash, two digits, forming a real calendar date (parseISO
validates the month and day ranges and yields an Invalid Date otherwise,
which the claims never exercise).  Expanded-year, week and time forms of
ISO 8601, and year 0 (which date-fns formats through its era handling),
are outside the model. -/
def parseISODate (s : String) : Option Ymd :=
  match s.data with
  | [y1, y2, y3, y4, c1, m1, m2, c2, d1, d2] =>
    if c1 = '-' ∧ c2 = '-' ∧ isDigitChar y1 = true ∧ isDigitChar y2 = true
        ∧ isDigitChar y3 = true ∧ isDigitChar y4 = true ∧ isDigitChar m1 = true
        ∧ isDigitChar m2 = true ∧ isDigitChar d1 = true ∧ isDigitChar d2 = true then
      if 1 ≤ (digitsVal [y1, y2, y3, y4] : Int) ∧ 1 ≤ (digitsVal [m1, m2] : Int)
          ∧ (digitsVal [m1, m2] : Int) ≤ 12 ∧ 1 ≤ (digitsVal [d1, d2] : Int)
          ∧ (digitsVal [d1, d2] : Int)
            ≤ daysInMonth (digitsVal [y1, y2, y3, y4] : Int) (digitsVal [m1, m2] : Int) then
        some ⟨(digitsVal [y1, y2, y3, y4] : Int), (digitsVal [m1, m2] : Int),
          (digitsVal [d1, d2] : Int)⟩
      else none
    else none
  | _ => none

/-- Model of padStart(4, "0") as the yyyy format token pads the year. -/
def padFour (cs : List Char) : List Char :=
  if 4 ≤ cs.length then cs
  else if cs.length = 3 then '0' :: cs
  else if cs.length = 2 then '0' :: '0' :: cs
  else if cs.length = 1 then '0' :: '0' :: '0' :: cs
  else ['0', '0', '0', '0']

/-- Model of format(date, "yyyy-MM-dd") on a date with year at least 1. -/
def formatYMD (t : Ymd) : String :=
  ⟨padFour (intChars t.year) ++ '-' :: (padTwo (intChars t.month) ++ '-' :: padTwo (intChars t.day))⟩

/-- Model of dateRange: parse both endpoints with parseISO, take the
calendar-day difference, and format the consecutive days; a negative
difference makes the constructed array empty (Array.from with
non-positive length).  The source feeds parseISO failures (NaN) through
the same arithmetic, which also produces an empty array; the model
returns the empty list there. -/
def dateRange (start finish : String) : List String :=
  match parseISODate start, parseISODate finish with
  | some ts, some te =>
    (List.range ((jsMakeDay te.year te.month te.day
        - jsMakeDay ts.year ts.month ts.day + 1).toNat)).map
      (fun i => formatYMD (addDaysYmd i ts))
  | _, _ => []

/-- Model of daysBetween: the signed calendar-day difference
(differenceInCalendarDays of the parsed endpoints).  The NaN the source
produces on unparseable input is outside the model; the claims evaluate
daysBetween on valid dates only. -/
def daysBetween (start finish : String) : Int :=
  match parseISODate start, parseISODate finish with
  | some ts, some te => jsMakeDay te.year te.month te.day - jsMakeDay ts.year ts.month ts.day
  | _, _ => 0

theorem parseISODate_valid {s : String} {t : Ymd} (h : parseISODate s = some t) :
    ValidYmd t ∧ 1 ≤ t.year := by
  unfold parseISODate at h
  split at h
  case h_2 => exact absurd h (by simp)
  case h_1 y1 y2 y3 y4 c1 m1 m2 c2 d1 d2 heq =>
    split_ifs at h with hdig hrange
    simp only [Option.some.injEq] at h
    subst h
    exact ⟨⟨hrange.2.1, hrange.2.2.1, hrange.2.2.2.1, hrange.2.2.2.2⟩, hrange.1⟩

theorem monthOffset_nonneg (y m : Int) (h1 : 1 ≤ m) (h2 : m ≤ 12) :
    0 ≤ monthOffset (isLeapYear y) m := by
  interval_cases m <;> cases h : isLeapYear y <;> norm_num [monthOffset, h]

theorem monthOffset_add_daysInMonth_le (y m : Int) (h1 : 1 ≤ m) (h2 : m ≤ 12) :
    monthOffset (isLeapYear y) m + daysInMonth y m ≤ daysInYear y := by
  interval_cases m <;> cases h : isLeapYear y <;>
    norm_num [monthOffset, daysInMonth, daysInYear, h]

theorem monthOffset_mono (y : Int) {m1 m2 : Int} (h1 : 1 ≤ m1) (hlt : m1 < m2)
    (h2 : m2 ≤ 12) : monthOffset (isLeapYear y) m1 + daysInMonth y m1
      ≤ monthOffset (isLeapYear y) m2 := by
  have hub : m1 ≤ 11 := by omega
  interval_cases m1 <;> interval_cases m2 <;> cases h : isLeapYear y <;>
    norm_num [monthOffset, daysInMonth, h]

theorem jsMakeDay_year_bounds {t : Ymd} (h : ValidYmd t) :
    dayFromYear t.year ≤ jsMakeDay t.year t.month t.day ∧
    jsMakeDay t.year t.month t.day < dayFromYear t.year + daysInYear t.year := by
  obtain ⟨h1, h2, h3, h4⟩ := h
  have hnn := monthOffset_nonneg t.year t.month h1 h2
  have hub := monthOffset_add_daysInMonth_le t.year t.month h1 h2
  unfold jsMakeDay
  omega

theorem dayFromYear_mono {y1 y2 : Int} (h : y1 < y2) :
    dayFromYear y1 + daysInYear y1 ≤ dayFromYear y2 := by
  have key : ∀ y : Int, y1 + 1 ≤ y → dayFromYear y1 + daysInYear y1 ≤ dayFromYear y := by
    refine Int.le_induction (le_of_eq (dayFromYear_succ y1).symm) ?_
    intro n _ ih
    rw [dayFromYear_succ]
    have hpos : (365 : Int) ≤ daysInYear n := by
      unfold daysInYear
      split_ifs <;> norm_num
    omega
  exact key y2 (by omega)

theorem jsMakeDay_inj {t1 t2 : Ymd} (h1 : ValidYmd t1) (h2 : ValidYmd t2)
    (h : jsMakeDay t1.year t1.month t1.day = jsMakeDay t2.year t2.month t2.day) :
    t1 = t2 := by
  obtain ⟨hb1, hb1'⟩ := jsMakeDay_year_bounds h1
  obtain ⟨hb2, hb2'⟩ := jsMakeDay_year_bounds h2
  obtain ⟨h11, h12, h13, h14⟩ := h1
  obtain ⟨h21, h22, h23, h24⟩ := h2
  have hyr : t1.year = t2.year := by
    rcases lt_trichotomy t1.year t2.year with hlt | heq | hlt
    · have := dayFromYear_mono hlt; omega
    · exact heq
    · have := dayFromYear_mono hlt; omega
  have hoff : monthOffset (isLeapYear t1.year) t1.month + t1.day
      = monthOffset (isLeapYear t1.year) t2.month + t2.day := by
    unfold jsMakeDay at h
    rw [← hyr] at h
    omega
  rw [← hyr] at h24
  have hmeq : t1.month = t2.month := by
    rcases lt_trichotomy t1.month t2.month with hmlt | hmeq | hmlt
    · have := monthOffset_mono t1.year h11 hmlt h22
      omega
    · exact hmeq
    · have := monthOffset_mono t1.year h21 hmlt h12
      omega
  have hdeq : t1.day = t2.day := by
    rw [hmeq] at hoff
    omega
  cases t1
  cases t2
  simp_all

/-- C4: for parseable endpoints with the finish not before the start,
dateRange lists exactly the calendar days from start to finish inclusive,
in ascending order: its length is daysBetween + 1, its element at index i
is the formatted i-th calendar successor of the start (whose day number
is the start day number plus i, so the listed days strictly ascend), and
every valid calendar date lying between the endpoints occurs in the
list. -/
theorem dateRange_inclusive_ascending (s e : String) (ts te : Ymd)
    (hs : parseISODate s = some ts) (he : parseISODate e = some te)
    (hle : jsMakeDay ts.year ts.month ts.day ≤ jsMakeDay te.year te.month te.day) :
    ((dateRange s e).length : Int) = daysBetween s e + 1 ∧
    (∀ (i : Nat) (h : i < (dateRange s e).length),
      (dateRange s e).get ⟨i, h⟩ = formatYMD (addDaysYmd i ts) ∧
      jsMakeDay (addDaysYmd i ts).year (addDaysYmd i ts).month (addDaysYmd i ts).day
        = jsMakeDay ts.year ts.month ts.day + i) ∧
    (∀ u : Ymd, ValidYmd u →
      jsMakeDay ts.year ts.month ts.day ≤ jsMakeDay u.year u.month u.day →
      jsMakeDay u.year u.month u.day ≤ jsMakeDay te.year te.month te.day →
      formatYMD u ∈ dateRange s e) := by
  obtain ⟨hvs, _⟩ := parseISODate_valid hs
  have hrange : dateRange s e
      = (List.range ((jsMakeDay te.year te.month te.day
          - jsMakeDay ts.year ts.month ts.day + 1).toNat)).map
        (fun i => formatYMD (addDaysYmd i ts)) := by
    unfold dateRange
    rw [hs, he]
  have hdays : daysBetween s e
      = jsMakeDay te.year te.month te.day - jsMakeDay ts.year ts.month ts.day := by
    unfold daysBetween
    rw [hs, he]
  have hlen : (dateRange s e).length
      = (jsMakeDay te.year te.month te.day - jsMakeDay ts.year ts.month ts.day + 1).toNat := by
    rw [hrange, List.length_map, List.length_range]
  refine ⟨?_, ?_, ?_⟩
  · rw [hlen, hdays]
    omega
  · intro i h
    have h' : i < (jsMakeDay te.year te.month te.day
        - jsMakeDay ts.year ts.month ts.day + 1).toNat := by
      rw [← hlen]
      exact h
    constructor
    · have hb : i < (List.range ((jsMakeDay te.year te.month te.day
          - jsMakeDay ts.year ts.month ts.day + 1).toNat)).length := by
        simpa using h'
      have hsome : (dateRange s e)[i]? = some (formatYMD (addDaysYmd i ts)) := by
        rw [hrange, List.getElem?_map, List.getElem?_eq_getElem hb, List.getElem_range]
        rfl
      have hg : (dateRange s e)[i]? = some ((dateRange s e).get ⟨i, h⟩) := by
        rw [List.get_eq_getElem]
        exact List.getElem?_eq_getElem h
      rw [hg] at hsome
      exact Option.some.inj hsome
    · exact jsMakeDay_addDaysYmd hvs i
  · intro u hvu hul huu
    set i : Nat := (jsMakeDay u.year u.month u.day - jsMakeDay ts.year ts.month ts.day).toNat
      with hi
    have hiu : addDaysYmd i ts = u := by
      apply jsMakeDay_inj (addDaysYmd_valid hvs i) hvu
      rw [jsMakeDay_addDaysYmd hvs i, hi]
      omega
    rw [hrange]
    refine List.mem_map.mpr ⟨i, List.mem_range.mpr (by omega), by rw [hiu]⟩

/-- Witness for C4 on the two-day range 2026-02-01 to 2026-02-03. -/
theorem dateRange_inclusive_ascending_witness :
    ((dateRange "2026-02-01" "2026-02-03").length : Int)
      = daysBetween "2026-02-01" "2026-02-03" + 1 ∧
    (∀ (i : Nat) (h : i < (dateRange "2026-02-01" "2026-02-03").length),
      (dateRange "2026-02-01" "2026-02-03").get ⟨i, h⟩
        = formatYMD (addDaysYmd i ⟨2026, 2, 1⟩) ∧
      jsMakeDay (addDaysYmd i ⟨2026, 2, 1⟩).year (addDaysYmd i ⟨2026, 2, 1⟩).month
          (addDaysYmd i ⟨2026, 2, 1⟩).day
        = jsMakeDay 2026 2 1 + i) ∧
    (∀ u : Ymd, ValidYmd u →
      jsMakeDay 2026 2 1 ≤ jsMakeDay u.year u.month u.day →
      jsMakeDay u.year u.month u.day ≤ jsMakeDay 2026 2 3 →
      formatYMD u ∈ dateRange "2026-02-01" "2026-02-03") :=
  dateRange_inclusive_ascending "2026-02-01" "2026-02-03" ⟨2026, 2, 1⟩ ⟨2026, 2, 3⟩
    (by decide) (by decide) (by decide)

/-- C8: with the finish strictly before the start, the computed day
difference is negative, so the constructed array has non-positive length
and dateRange returns the empty sequence. -/
theorem dateRange_empty_when_reversed (s e : String) (ts te : Ymd)
    (hs : parseISODate s = some ts) (he : parseISODate e = some te)
    (hlt : jsMakeDay te.year te.month te.day < jsMakeDay ts.year ts.month ts.day) :
    dateRange s e = [] := by
  unfold dateRange
  rw [hs, he]
  dsimp only
  rw [show (jsMakeDay te.year te.month te.day
      - jsMakeDay ts.year ts.month ts.day + 1).toNat = 0 from by omega]
  rfl

/-- Witness for C8 on the reversed range 2026-02-03 to 2026-02-01. -/
theorem dateRange_empty_when_reversed_witness :
    dateRange "2026-02-03" "2026-02-01" = [] :=
  dateRange_empty_when_reversed "2026-02-03" "2026-02-01" ⟨2026, 2, 3⟩ ⟨2026, 2, 1⟩
    (by decide) (by decide) (by decide)

end GanttSpec
